import Mathlib

/-!
Shallow embedding of the splendor_arena game engine (Rust sources under
src/) together with proofs about the claims of the specification.

Conventions of the embedding:
* Rust machine integers (i8, u8, u32, usize, i32) are modelled as Lean
  Int or Nat.  Overflow never matters for the claims considered: all
  reachable gem counts, points and indices are tiny.
* Rust Vec and HashSet are modelled as List; HashSet insertion dedups
  via membership (iteration order of a Rust HashSet is unspecified, so
  any fixed enumeration order is a faithful model).
* Fallible operations (indexing panics, .unwrap(), .expect(...), and
  debug_assert! guards, which are active in the builds exercised by the
  repository test-suite) are modelled in the Option monad: `none` is a
  panic / failed assertion.
* Pure arithmetic on the Gems vector is modelled without the nested
  debug_assert! legality checks of AddAssign/SubAssign; those checks
  are implied by the top-level guards that are modelled.
-/

namespace SplendorArena

/-- Gem tags, from src/gem.rs. Gold is the wild token. -/
inductive Gem where
  | Onyx
  | Sapphire
  | Emerald
  | Ruby
  | Diamond
  | Gold
deriving DecidableEq, Repr

/-- Gem::all from src/gem.rs. -/
def Gem.all : List Gem := [Gem.Onyx, Gem.Sapphire, Gem.Emerald, Gem.Ruby, Gem.Diamond, Gem.Gold]

/-- Gem::all_expect_gold from src/gem.rs (name kept from the source). -/
def Gem.allExpectGold : List Gem := [Gem.Onyx, Gem.Sapphire, Gem.Emerald, Gem.Ruby, Gem.Diamond]

/-- Gems, the six-component token vector from src/gems.rs (i8 fields
modelled as Int). -/
@[ext]
structure Gems where
  onyx : Int
  sapphire : Int
  emerald : Int
  ruby : Int
  diamond : Int
  gold : Int
deriving DecidableEq, Repr

/-- Gems::empty from src/gems.rs. -/
def Gems.empty : Gems := ⟨0, 0, 0, 0, 0, 0⟩

instance : Add Gems :=
  ⟨fun a b => ⟨a.onyx + b.onyx, a.sapphire + b.sapphire, a.emerald + b.emerald,
    a.ruby + b.ruby, a.diamond + b.diamond, a.gold + b.gold⟩⟩

instance : Sub Gems :=
  ⟨fun a b => ⟨a.onyx - b.onyx, a.sapphire - b.sapphire, a.emerald - b.emerald,
    a.ruby - b.ruby, a.diamond - b.diamond, a.gold - b.gold⟩⟩

instance : Neg Gems :=
  ⟨fun a => ⟨-a.onyx, -a.sapphire, -a.emerald, -a.ruby, -a.diamond, -a.gold⟩⟩

instance : Zero Gems := ⟨Gems.empty⟩

theorem Gems.add_def (a b : Gems) :
    a + b = ⟨a.onyx + b.onyx, a.sapphire + b.sapphire, a.emerald + b.emerald,
      a.ruby + b.ruby, a.diamond + b.diamond, a.gold + b.gold⟩ := rfl

theorem Gems.sub_def (a b : Gems) :
    a - b = ⟨a.onyx - b.onyx, a.sapphire - b.sapphire, a.emerald - b.emerald,
      a.ruby - b.ruby, a.diamond - b.diamond, a.gold - b.gold⟩ := rfl

theorem Gems.neg_def (a : Gems) :
    -a = ⟨-a.onyx, -a.sapphire, -a.emerald, -a.ruby, -a.diamond, -a.gold⟩ := rfl

theorem Gems.zero_def : (0 : Gems) = ⟨0, 0, 0, 0, 0, 0⟩ := rfl

instance : AddCommGroup Gems where
  add_assoc a b c := by ext <;> simp [Gems.add_def] <;> ring
  zero_add a := by ext <;> simp [Gems.add_def, Gems.zero_def]
  add_zero a := by ext <;> simp [Gems.add_def, Gems.zero_def]
  add_comm a b := by ext <;> simp [Gems.add_def] <;> ring
  neg_add_cancel a := by ext <;> simp [Gems.add_def, Gems.neg_def, Gems.zero_def]
  sub_eq_add_neg a b := by ext <;> simp [Gems.add_def, Gems.sub_def, Gems.neg_def] <;> ring
  nsmul := nsmulRec
  zsmul := zsmulRec

/-- Indexing a Gems vector by a Gem, from the Index impl in src/gems.rs. -/
def Gems.get (g : Gems) : Gem → Int
  | Gem.Onyx => g.onyx
  | Gem.Sapphire => g.sapphire
  | Gem.Emerald => g.emerald
  | Gem.Ruby => g.ruby
  | Gem.Diamond => g.diamond
  | Gem.Gold => g.gold

/-- Gems::one from src/gems.rs. -/
def Gems.one : Gem → Gems
  | Gem.Onyx => ⟨1, 0, 0, 0, 0, 0⟩
  | Gem.Sapphire => ⟨0, 1, 0, 0, 0, 0⟩
  | Gem.Emerald => ⟨0, 0, 1, 0, 0, 0⟩
  | Gem.Ruby => ⟨0, 0, 0, 1, 0, 0⟩
  | Gem.Diamond => ⟨0, 0, 0, 0, 1, 0⟩
  | Gem.Gold => ⟨0, 0, 0, 0, 0, 1⟩

/-- Gems::total from src/gems.rs.  The source computes a u32 from i8
casts under a debug_assert that all components are non-negative; on
such legal values it equals this Int sum. -/
def Gems.total (g : Gems) : Int :=
  g.onyx + g.sapphire + g.emerald + g.ruby + g.diamond + g.gold

/-- Gems::legal from src/gems.rs: all components non-negative. -/
def Gems.legal (g : Gems) : Prop :=
  0 ≤ g.onyx ∧ 0 ≤ g.sapphire ∧ 0 ≤ g.emerald ∧ 0 ≤ g.ruby ∧ 0 ≤ g.diamond ∧ 0 ≤ g.gold

instance (g : Gems) : Decidable g.legal := by
  unfold Gems.legal
  infer_instance

/-- Gems::distinct from src/gems.rs: how many of the five non-gold
piles are non-empty. -/
def Gems.distinct (g : Gems) : Nat :=
  (if 0 < g.onyx then 1 else 0) + (if 0 < g.sapphire then 1 else 0) +
  (if 0 < g.emerald then 1 else 0) + (if 0 < g.ruby then 1 else 0) +
  (if 0 < g.diamond then 1 else 0)

/-- Gems::to_set from src/gems.rs: the set of non-gold gems with a
positive count, as a list (HashSet iteration order is unspecified; we
fix the field order of the source checks). -/
def Gems.toSet (g : Gems) : List Gem :=
  (if 0 < g.onyx then [Gem.Onyx] else []) ++
  (if 0 < g.sapphire then [Gem.Sapphire] else []) ++
  (if 0 < g.emerald then [Gem.Emerald] else []) ++
  (if 0 < g.ruby then [Gem.Ruby] else []) ++
  (if 0 < g.diamond then [Gem.Diamond] else [])

/-- Gems::from_set / Gems::from_vec from src/gems.rs: add one token per
element of the collection. -/
def Gems.fromList (l : List Gem) : Gems :=
  l.foldl (fun g c => g + Gems.one c) Gems.empty

/-- Gems::start from src/gems.rs: the starting bank for 2..4 players.
The source panics on any other count; claims only use 2..4, so other
inputs get a junk value here. -/
def Gems.start : Nat → Gems
  | 2 => ⟨4, 4, 4, 4, 4, 5⟩
  | 3 => ⟨5, 5, 5, 5, 5, 5⟩
  | 4 => ⟨7, 7, 7, 7, 7, 5⟩
  | _ => Gems.empty

/-- Cost, the gold-free cost vector from src/card.rs (i8 fields as Int). -/
@[ext]
structure Cost where
  onyx : Int
  sapphire : Int
  emerald : Int
  ruby : Int
  diamond : Int
deriving DecidableEq, Repr

/-- Cost::discounted_with from src/card.rs: per-component saturated
subtraction of the development discounts. -/
def Cost.discountedWith (c : Cost) (gems : Gems) : Cost :=
  ⟨max 0 (c.onyx - gems.onyx), max 0 (c.sapphire - gems.sapphire),
   max 0 (c.emerald - gems.emerald), max 0 (c.ruby - gems.ruby),
   max 0 (c.diamond - gems.diamond)⟩

/-- Cost::to_gems from src/card.rs. -/
def Cost.toGems (c : Cost) : Gems :=
  ⟨c.onyx, c.sapphire, c.emerald, c.ruby, c.diamond, 0⟩

/-- Card from src/card.rs.  CardId (u8) is a Nat. -/
structure Card where
  id : Nat
  tier : Nat
  gem : Gem
  points : Nat
  cost : Cost
deriving DecidableEq, Repr

/-- Placeholder card used for total modelling of Vec indexing; the
source panics on an out-of-range index and all guarded uses stay in
range. -/
def Card.dflt : Card := ⟨0, 0, Gem.Onyx, 0, ⟨0, 0, 0, 0, 0⟩⟩

/-- Noble from src/nobles.rs.  NobleId (u8) is a Nat. -/
structure Noble where
  points : Nat
  id : Nat
  requirements : Gems
deriving DecidableEq, Repr

/-- Noble::is_attracted_to from src/nobles.rs. -/
def Noble.isAttractedTo (nb : Noble) (developments : Gems) : Prop :=
  nb.requirements.onyx ≤ developments.onyx ∧
  nb.requirements.sapphire ≤ developments.sapphire ∧
  nb.requirements.emerald ≤ developments.emerald ∧
  nb.requirements.ruby ≤ developments.ruby ∧
  nb.requirements.diamond ≤ developments.diamond

instance (nb : Noble) (d : Gems) : Decidable (nb.isAttractedTo d) := by
  unfold Noble.isAttractedTo
  infer_instance

/-- Placeholder noble (see Card.dflt). -/
def Noble.dflt : Noble := ⟨0, 0, Gems.empty⟩

set_option maxHeartbeats 1000000

/-- Card::all / Card::all_const from src/card.rs: the fixed table of 90
cards, fields reordered into (id, tier, gem, points, (onyx, sapphire,
emerald, ruby, diamond)). -/
def Card.all : List Card := [
  ⟨0, 1, Gem.Onyx, 0, ⟨0, 1, 1, 1, 1⟩⟩,
  ⟨1, 1, Gem.Onyx, 0, ⟨0, 2, 1, 1, 1⟩⟩,
  ⟨2, 1, Gem.Onyx, 0, ⟨0, 2, 0, 1, 2⟩⟩,
  ⟨3, 1, Gem.Onyx, 0, ⟨1, 0, 1, 3, 0⟩⟩,
  ⟨4, 1, Gem.Onyx, 0, ⟨0, 0, 2, 1, 0⟩⟩,
  ⟨5, 1, Gem.Onyx, 0, ⟨0, 0, 2, 0, 2⟩⟩,
  ⟨6, 1, Gem.Onyx, 0, ⟨0, 0, 3, 0, 0⟩⟩,
  ⟨7, 1, Gem.Onyx, 1, ⟨0, 4, 0, 0, 0⟩⟩,
  ⟨8, 1, Gem.Sapphire, 0, ⟨1, 0, 1, 1, 1⟩⟩,
  ⟨9, 1, Gem.Sapphire, 0, ⟨1, 0, 1, 2, 1⟩⟩,
  ⟨10, 1, Gem.Sapphire, 0, ⟨0, 0, 2, 2, 1⟩⟩,
  ⟨11, 1, Gem.Sapphire, 0, ⟨0, 1, 3, 1, 0⟩⟩,
  ⟨12, 1, Gem.Sapphire, 0, ⟨2, 0, 0, 0, 1⟩⟩,
  ⟨13, 1, Gem.Sapphire, 0, ⟨2, 0, 2, 0, 0⟩⟩,
  ⟨14, 1, Gem.Sapphire, 0, ⟨3, 0, 0, 0, 0⟩⟩,
  ⟨15, 1, Gem.Sapphire, 1, ⟨0, 0, 0, 4, 0⟩⟩,
  ⟨16, 1, Gem.Diamond, 0, ⟨1, 1, 1, 1, 0⟩⟩,
  ⟨17, 1, Gem.Diamond, 0, ⟨1, 1, 2, 1, 0⟩⟩,
  ⟨18, 1, Gem.Diamond, 0, ⟨1, 2, 2, 0, 0⟩⟩,
  ⟨19, 1, Gem.Diamond, 0, ⟨1, 1, 0, 0, 3⟩⟩,
  ⟨20, 1, Gem.Diamond, 0, ⟨1, 0, 0, 2, 0⟩⟩,
  ⟨21, 1, Gem.Diamond, 0, ⟨2, 2, 0, 0, 0⟩⟩,
  ⟨22, 1, Gem.Diamond, 0, ⟨0, 3, 0, 0, 0⟩⟩,
  ⟨23, 1, Gem.Diamond, 1, ⟨0, 0, 4, 0, 0⟩⟩,
  ⟨24, 1, Gem.Emerald, 0, ⟨1, 1, 0, 1, 1⟩⟩,
  ⟨25, 1, Gem.Emerald, 0, ⟨2, 1, 0, 1, 1⟩⟩,
  ⟨26, 1, Gem.Emerald, 0, ⟨2, 1, 0, 2, 0⟩⟩,
  ⟨27, 1, Gem.Emerald, 0, ⟨0, 3, 1, 0, 1⟩⟩,
  ⟨28, 1, Gem.Emerald, 0, ⟨0, 1, 0, 0, 2⟩⟩,
  ⟨29, 1, Gem.Emerald, 0, ⟨0, 2, 0, 2, 0⟩⟩,
  ⟨30, 1, Gem.Emerald, 0, ⟨0, 0, 0, 3, 0⟩⟩,
  ⟨31, 1, Gem.Emerald, 1, ⟨4, 0, 0, 0, 0⟩⟩,
  ⟨32, 1, Gem.Ruby, 0, ⟨1, 1, 1, 0, 1⟩⟩,
  ⟨33, 1, Gem.Ruby, 0, ⟨1, 1, 1, 0, 2⟩⟩,
  ⟨34, 1, Gem.Ruby, 0, ⟨2, 0, 1, 0, 2⟩⟩,
  ⟨35, 1, Gem.Ruby, 0, ⟨3, 0, 0, 1, 1⟩⟩,
  ⟨36, 1, Gem.Ruby, 0, ⟨0, 2, 1, 0, 0⟩⟩,
  ⟨37, 1, Gem.Ruby, 0, ⟨0, 0, 0, 2, 2⟩⟩,
  ⟨38, 1, Gem.Ruby, 0, ⟨0, 0, 0, 0, 3⟩⟩,
  ⟨39, 1, Gem.Ruby, 1, ⟨0, 0, 0, 0, 4⟩⟩,
  ⟨40, 2, Gem.Onyx, 1, ⟨0, 2, 2, 0, 3⟩⟩,
  ⟨41, 2, Gem.Onyx, 1, ⟨2, 0, 3, 0, 3⟩⟩,
  ⟨42, 2, Gem.Onyx, 2, ⟨0, 1, 4, 2, 0⟩⟩,
  ⟨43, 2, Gem.Onyx, 2, ⟨0, 0, 5, 3, 0⟩⟩,
  ⟨44, 2, Gem.Onyx, 2, ⟨0, 0, 0, 0, 5⟩⟩,
  ⟨45, 2, Gem.Onyx, 3, ⟨6, 0, 0, 0, 0⟩⟩,
  ⟨46, 2, Gem.Sapphire, 1, ⟨0, 2, 2, 3, 0⟩⟩,
  ⟨47, 2, Gem.Sapphire, 1, ⟨3, 2, 3, 0, 0⟩⟩,
  ⟨48, 2, Gem.Sapphire, 2, ⟨0, 3, 0, 0, 5⟩⟩,
  ⟨49, 2, Gem.Sapphire, 2, ⟨4, 0, 0, 1, 2⟩⟩,
  ⟨50, 2, Gem.Sapphire, 2, ⟨0, 5, 0, 0, 0⟩⟩,
  ⟨51, 2, Gem.Sapphire, 3, ⟨0, 6, 0, 0, 0⟩⟩,
  ⟨52, 2, Gem.Diamond, 1, ⟨2, 0, 3, 2, 0⟩⟩,
  ⟨53, 2, Gem.Diamond, 1, ⟨0, 3, 0, 3, 2⟩⟩,
  ⟨54, 2, Gem.Diamond, 2, ⟨2, 0, 1, 4, 0⟩⟩,
  ⟨55, 2, Gem.Diamond, 2, ⟨3, 0, 0, 5, 0⟩⟩,
  ⟨56, 2, Gem.Diamond, 2, ⟨0, 0, 0, 5, 0⟩⟩,
  ⟨57, 2, Gem.Diamond, 3, ⟨0, 0, 0, 0, 6⟩⟩,
  ⟨58, 2, Gem.Emerald, 1, ⟨0, 0, 2, 3, 3⟩⟩,
  ⟨59, 2, Gem.Emerald, 1, ⟨2, 3, 0, 0, 2⟩⟩,
  ⟨60, 2, Gem.Emerald, 2, ⟨1, 2, 0, 0, 4⟩⟩,
  ⟨61, 2, Gem.Emerald, 2, ⟨0, 5, 3, 0, 0⟩⟩,
  ⟨62, 2, Gem.Emerald, 2, ⟨0, 0, 5, 0, 0⟩⟩,
  ⟨63, 2, Gem.Emerald, 3, ⟨0, 0, 6, 0, 0⟩⟩,
  ⟨64, 2, Gem.Ruby, 1, ⟨3, 0, 0, 2, 2⟩⟩,
  ⟨65, 2, Gem.Ruby, 1, ⟨3, 3, 0, 2, 0⟩⟩,
  ⟨66, 2, Gem.Ruby, 2, ⟨0, 4, 2, 0, 1⟩⟩,
  ⟨67, 2, Gem.Ruby, 2, ⟨5, 0, 0, 0, 3⟩⟩,
  ⟨68, 2, Gem.Ruby, 2, ⟨5, 0, 0, 0, 0⟩⟩,
  ⟨69, 2, Gem.Ruby, 3, ⟨0, 0, 0, 6, 0⟩⟩,
  ⟨70, 3, Gem.Onyx, 3, ⟨0, 3, 5, 3, 3⟩⟩,
  ⟨71, 3, Gem.Onyx, 4, ⟨0, 0, 0, 7, 0⟩⟩,
  ⟨72, 3, Gem.Onyx, 4, ⟨3, 0, 3, 6, 0⟩⟩,
  ⟨73, 3, Gem.Onyx, 5, ⟨3, 0, 0, 7, 0⟩⟩,
  ⟨74, 3, Gem.Sapphire, 3, ⟨5, 0, 3, 3, 3⟩⟩,
  ⟨75, 3, Gem.Sapphire, 4, ⟨0, 0, 0, 0, 7⟩⟩,
  ⟨76, 3, Gem.Sapphire, 4, ⟨3, 3, 0, 0, 6⟩⟩,
  ⟨77, 3, Gem.Sapphire, 5, ⟨0, 3, 0, 0, 7⟩⟩,
  ⟨78, 3, Gem.Diamond, 3, ⟨3, 3, 3, 5, 0⟩⟩,
  ⟨79, 3, Gem.Diamond, 4, ⟨7, 0, 0, 0, 0⟩⟩,
  ⟨80, 3, Gem.Diamond, 4, ⟨6, 0, 0, 3, 3⟩⟩,
  ⟨81, 3, Gem.Diamond, 5, ⟨7, 0, 0, 0, 3⟩⟩,
  ⟨82, 3, Gem.Emerald, 3, ⟨3, 3, 0, 3, 5⟩⟩,
  ⟨83, 3, Gem.Emerald, 4, ⟨0, 7, 0, 0, 0⟩⟩,
  ⟨84, 3, Gem.Emerald, 4, ⟨0, 6, 3, 0, 3⟩⟩,
  ⟨85, 3, Gem.Emerald, 5, ⟨0, 7, 3, 0, 0⟩⟩,
  ⟨86, 3, Gem.Ruby, 3, ⟨3, 5, 3, 0, 3⟩⟩,
  ⟨87, 3, Gem.Ruby, 4, ⟨0, 0, 7, 0, 0⟩⟩,
  ⟨88, 3, Gem.Ruby, 4, ⟨0, 3, 6, 3, 0⟩⟩,
  ⟨89, 3, Gem.Ruby, 5, ⟨0, 0, 7, 3, 0⟩⟩
]

/-- Noble::all from src/nobles.rs, fields (points, id, requirements). -/
def Noble.all : List Noble := [
  ⟨3, 0, ⟨0, 0, 4, 4, 0, 0⟩⟩,
  ⟨3, 1, ⟨3, 0, 0, 3, 3, 0⟩⟩,
  ⟨3, 2, ⟨3, 0, 3, 3, 0, 0⟩⟩,
  ⟨3, 3, ⟨0, 4, 0, 0, 4, 0⟩⟩,
  ⟨3, 4, ⟨4, 0, 0, 0, 4, 0⟩⟩,
  ⟨3, 5, ⟨0, 4, 4, 0, 0, 0⟩⟩,
  ⟨3, 6, ⟨0, 3, 3, 3, 0, 0⟩⟩,
  ⟨3, 7, ⟨0, 3, 3, 0, 3, 0⟩⟩,
  ⟨3, 8, ⟨4, 0, 4, 0, 0, 0⟩⟩,
  ⟨3, 9, ⟨3, 3, 0, 0, 3, 0⟩⟩
]

/-- Player from src/player.rs: points and noble_points (u8), the
reserved and blind_reserved card-id lists, gem wallet and development
counts. -/
structure Player where
  points : Nat
  noblePoints : Nat
  reserved : List Nat
  gems : Gems
  developments : Gems
  blindReserved : List Nat
deriving DecidableEq, Repr

/-- Player::new from src/player.rs. -/
def Player.new : Player := ⟨0, 0, [], Gems.empty, Gems.empty, []⟩

/-- Insertion into a modelled HashSet: append the element unless it is
already present.  Models the dedup behaviour of HashSet::insert /
HashSet::from_iter / extend in the sources. -/
def hsInsert {α : Type} [DecidableEq α] (l : List α) (x : α) : List α :=
  if x ∈ l then l else l ++ [x]

/-- Extend a modelled HashSet by a batch of elements (HashSet::extend). -/
def hsExtend {α : Type} [DecidableEq α] (l : List α) (xs : List α) : List α :=
  xs.foldl hsInsert l

theorem mem_hsInsert {α : Type} [DecidableEq α] {l : List α} {x y : α} :
    y ∈ hsInsert l x ↔ y ∈ l ∨ y = x := by
  unfold hsInsert
  split
  · next h =>
    constructor
    · exact fun hy => Or.inl hy
    · rintro (hy | rfl) <;> [exact hy; exact h]
  · simp

theorem mem_hsExtend {α : Type} [DecidableEq α] {l xs : List α} {y : α} :
    y ∈ hsExtend l xs ↔ y ∈ l ∨ y ∈ xs := by
  induction xs generalizing l with
  | nil => simp [hsExtend]
  | cons x xs ih =>
    show y ∈ hsExtend (hsInsert l x) xs ↔ _
    rw [ih, mem_hsInsert]
    simp [or_assoc]

theorem hsInsert_ne_nil {α : Type} [DecidableEq α] {l : List α} {x : α} :
    hsInsert l x ≠ [] := by
  unfold hsInsert
  split
  · next h =>
    intro hnil
    rw [hnil] at h
    exact absurd h (List.not_mem_nil x)
  · simp

theorem hsExtend_ne_nil_left {α : Type} [DecidableEq α] {l xs : List α} (h : l ≠ []) :
    hsExtend l xs ≠ [] := by
  induction xs generalizing l with
  | nil => exact h
  | cons x xs ih => exact ih hsInsert_ne_nil

theorem hsExtend_ne_nil_right {α : Type} [DecidableEq α] {l xs : List α} (h : xs ≠ []) :
    hsExtend l xs ≠ [] := by
  cases xs with
  | nil => exact absurd rfl h
  | cons x xs =>
    show hsExtend (hsInsert l x) xs ≠ []
    exact hsExtend_ne_nil_left hsInsert_ne_nil

/-- Sum of the positive parts of the six components; the termination
measure of the gem_match recursion (each recursive call subtracts one
from a strictly positive component of the cost). -/
def posSum (c : Gems) : Nat :=
  c.onyx.toNat + c.sapphire.toNat + c.emerald.toNat + c.ruby.toNat +
  c.diamond.toNat + c.gold.toNat

/-- The color loop inside gem_match (src/player.rs): for each color
with a positive remaining cost, pay one unit of it with the matching
gem or with a gold, and collect both recursive result sets. -/
def gemMatchGo (recur : Gems → Gems → Gems → List Gems) (cost gems running : Gems) :
    List Gem → List Gems → List Gems
  | [], acc => acc
  | c :: cs, acc =>
    let acc :=
      if 0 < cost.get c then
        let acc :=
          if 0 < gems.get c then
            hsExtend acc (recur (cost - Gems.one c) (gems - Gems.one c) (running + Gems.one c))
          else acc
        if 0 < gems.get Gem.Gold then
          hsExtend acc (recur (cost - Gems.one c) (gems - Gems.one Gem.Gold) (running + Gems.one Gem.Gold))
        else acc
      else acc
    gemMatchGo recur cost gems running cs acc

/-- Fuelled form of gem_match from src/player.rs; the fuel is a
termination device only and gemMatch below always supplies enough. -/
def gemMatchF : Nat → Gems → Gems → Gems → List Gems
  | 0, _, _, _ => []
  | fuel + 1, cost, gems, running =>
    if cost.total = 0 then [running]
    else if gems.total = 0 then []
    else gemMatchGo (gemMatchF fuel) cost gems running Gem.all []

/-- gem_match from src/player.rs: all exact ways to pay the remaining
cost from the given wallet, wild gold substituting for any color. -/
def gemMatch (cost gems running : Gems) : List Gems :=
  gemMatchF (posSum cost + 1) cost gems running

/-- The total-deficit loop at the top of Player::payment_options_for
(src/player.rs). -/
def deficitOf (cost gems : Gems) : Int :=
  Gem.all.foldl
    (fun acc color =>
      let d := cost.get color - gems.get color
      if 0 < d then acc + d else acc) 0

/-- Player::payment_options_for from src/player.rs: None when the card
is unaffordable, otherwise the non-empty set of exact payments. -/
def Player.paymentOptionsFor (p : Player) (card : Card) : Option (List Gems) :=
  let cost := (card.cost.discountedWith p.developments).toGems
  if p.gems.get Gem.Gold < deficitOf cost p.gems then none
  else
    let payments := gemMatch cost p.gems Gems.empty
    if payments.length = 0 then none
    else some payments

/-- Phase from src/game_logic/mod.rs. -/
inductive Phase where
  | PlayerStart
  | PlayerGemCapExceeded
  | NobleAction
  | PlayerActionEnd
deriving DecidableEq, Repr

/-- Action from src/game_logic/mod.rs.  The HashSet of TakeDistinct is
a list (generated duplicate-free), Purchase carries (CardId, payment). -/
inductive Action where
  | TakeDouble (color : Gem)
  | TakeDistinct (colors : List Gem)
  | Reserve (cardId : Nat)
  | ReserveHidden (tier : Nat)
  | Purchase (x : Nat × Gems)
  | Discard (gems : Gems)
  | AttractNoble (nobleId : Nat)
  | Pass
  | Continue
deriving DecidableEq, Repr

/-- GameHistory from src/game_logic/history.rs: the ordered list of
(player_num, Action) entries. -/
abbrev GameHistory := List (Nat × Action)

/-- The color loop inside choose_gems (src/game_logic/mod.rs). -/
def chooseGemsGo (recur : Gems → Gems → List Gems) (gems running : Gems) :
    List Gem → List Gems → List Gems
  | [], acc => acc
  | c :: cs, acc =>
    let acc :=
      if 0 < gems.get c then
        hsExtend acc (recur (gems - Gems.one c) (running + Gems.one c))
      else acc
    chooseGemsGo recur gems running cs acc

/-- choose_gems from src/game_logic/mod.rs: all multisets of num_chosen
gems drawn from the given pile (used to enumerate discards). -/
def chooseGems (gems running : Gems) : Nat → List Gems
  | 0 => [running]
  | Nat.succ m => chooseGemsGo (fun g r => chooseGems g r m) gems running Gem.all []

/-- The color loop inside choose_distinct_gems (src/game_logic/mod.rs);
a color already present in the running choice is skipped. -/
def chooseDistinctGo (recur : Gems → Gems → List Gems) (gems running : Gems) :
    List Gem → List Gems → List Gems
  | [], acc => acc
  | c :: cs, acc =>
    let acc :=
      if 0 < gems.get c then
        if 0 < running.get c then acc
        else hsExtend acc (recur (gems - Gems.one c) (running + Gems.one c))
      else acc
    chooseDistinctGo recur gems running cs acc

/-- choose_distinct_gems from src/game_logic/mod.rs: all sets of
num_chosen distinct non-gold gems available in the pile. -/
def chooseDistinctGems (gems running : Gems) : Nat → List Gems
  | 0 => [running]
  | Nat.succ m =>
    chooseDistinctGo (fun g r => chooseDistinctGems g r m) gems running Gem.allExpectGold []

/-- Game from src/game_logic/game.rs.  Decks hold the face-down cards
per tier (top of deck at the end, as Vec::pop pops the back); dealt
cards are the face-up card ids per tier. -/
structure Game where
  players : List Player
  bank : Gems
  decks : List (List Card)
  currentPlayer : Nat
  nobles : List Noble
  dealtCards : List (List Nat)
  currentPhase : Phase
  cardLookup : List Card
  history : GameHistory
  deadlockCount : Nat
deriving DecidableEq, Repr

/-- The players[current_player] access used throughout game.rs.  The
source panics when the index is out of range; every guarded use below
checks the bound first, and claims about raw states carry it as a
hypothesis. -/
def Game.currentP (g : Game) : Player :=
  g.players.getD g.currentPlayer Player.new

/-- Game::new from src/game_logic/game.rs, with the randomness made
explicit: deck1..deck3 are the three shuffled tier decks and nobles the
shuffled and truncated noble list.  The first four cards of each deck
are dealt face-up (Vec::drain(0..4); the source panics when a deck has
fewer than four cards, which the real tables never do). -/
def Game.newWith (players : Nat) (cardLookup : List Card)
    (deck1 deck2 deck3 : List Card) (nobles : List Noble) : Game where
  players := List.replicate players Player.new
  bank := Gems.start players
  decks := [deck1.drop 4, deck2.drop 4, deck3.drop 4]
  currentPlayer := 0
  nobles := nobles
  dealtCards := [(deck1.take 4).map Card.id, (deck2.take 4).map Card.id, (deck3.take 4).map Card.id]
  currentPhase := Phase.PlayerStart
  cardLookup := cardLookup
  history := []
  deadlockCount := 0

/-- Game::get_legal_actions from src/game_logic/game.rs. -/
def Game.getLegalActions (g : Game) : Option (List Action) :=
  if g.deadlockCount = 2 * g.players.length then none
  else
    match g.currentPhase with
    | Phase.NobleAction =>
      let p := g.currentP
      let nobleActs :=
        (g.nobles.filter (fun nb => decide (nb.isAttractedTo p.developments))).map
          (fun nb => Action.AttractNoble nb.id)
      if nobleActs.length = 0 then some [Action.Pass] else some nobleActs
    | Phase.PlayerActionEnd =>
      if g.currentPlayer = g.players.length - 1 ∧ g.players.any (fun p => 15 ≤ p.points)
      then none
      else some [Action.Continue]
    | Phase.PlayerGemCapExceeded =>
      let p := g.currentP
      let discardNum := (p.gems.total - 10).toNat
      let choices := chooseGems p.gems Gems.empty discardNum
      some (choices.map Action.Discard)
    | Phase.PlayerStart =>
      let p := g.currentP
      let reserveActs : List Action :=
        if p.reserved.length < 3 then
          (List.range 3).foldl
            (fun acc tier =>
              (acc ++ (if 0 < (g.decks.getD tier []).length then [Action.ReserveHidden tier] else []))
                ++ ((g.dealtCards.getD tier []).map Action.Reserve))
            []
        else []
      let purchaseActs : List Action :=
        (g.dealtCards.flatten ++ p.reserved).foldl
          (fun acc cardIndex =>
            let card := g.cardLookup.getD cardIndex Card.dflt
            match p.paymentOptionsFor card with
            | some payments => acc ++ payments.map (fun pay => Action.Purchase (cardIndex, pay))
            | none => acc)
          []
      let takeMax := min g.bank.distinct 3
      let choices := chooseDistinctGems g.bank Gems.empty takeMax
      let distinctActs : List Action :=
        if 0 < takeMax then choices.map (fun ch => Action.TakeDistinct ch.toSet) else []
      let doubleActs : List Action :=
        (Gem.allExpectGold.filter (fun c => decide (4 ≤ g.bank.get c))).map Action.TakeDouble
      let actions := reserveActs ++ purchaseActs ++ distinctActs ++ doubleActs
      if actions.length = 0 then some [Action.Pass] else some actions

/-- Game::is_phase_correct_for from src/game_logic/game.rs. -/
def Game.isPhaseCorrectFor (g : Game) (a : Action) : Bool :=
  match g.currentPhase with
  | Phase.PlayerStart =>
    match a with
    | Action.TakeDouble _ => true
    | Action.TakeDistinct _ => true
    | Action.Reserve _ => true
    | Action.ReserveHidden _ => true
    | Action.Purchase _ => true
    | Action.Pass => true
    | _ => false
  | Phase.PlayerGemCapExceeded =>
    match a with
    | Action.Discard _ => true
    | _ => false
  | Phase.NobleAction =>
    match a with
    | Action.AttractNoble _ => true
    | Action.Pass => true
    | _ => false
  | Phase.PlayerActionEnd =>
    match a with
    | Action.Continue => true
    | _ => false

/-- A debug_assert! / precondition: `none` models the panic of a failed
assertion or unwrap. -/
def ensure (p : Prop) [Decidable p] : Option Unit :=
  if p then some () else none

/-- Game::remove_card from src/game_logic/game.rs: locate a face-up
card (the scan keeps the last match) and remove it, returning the tier
it came from.  `none` models the panic of the (5, 5) sentinel index
when the card is absent. -/
def removeCard (dealt : List (List Nat)) (cardId : Nat) : Option (Nat × List (List Nat)) :=
  let pos :=
    dealt.enum.foldl
      (fun acc (tierRow : Nat × List Nat) =>
        tierRow.2.enum.foldl
          (fun acc2 (idRow : Nat × Nat) => if idRow.2 = cardId then some (tierRow.1, idRow.1) else acc2)
          acc)
      none
  match pos with
  | none => none
  | some (i, j) => some (i, dealt.set i ((dealt.getD i []).eraseIdx j))

/-- Game::deal_to from src/game_logic/game.rs: pop the top (back) of
the tier deck, if any, and append its id to the face-up row.  Returns
the updated decks and dealt cards plus the dealt id. -/
def dealTo (decks : List (List Card)) (dealt : List (List Nat)) (tier : Nat) :
    List (List Card) × List (List Nat) × Option Nat :=
  let deck := decks.getD tier []
  match deck.getLast? with
  | none => (decks, dealt, none)
  | some card =>
    (decks.set tier deck.dropLast, dealt.set tier ((dealt.getD tier []) ++ [card.id]),
      some card.id)

/-- Game::play_action from src/game_logic/game.rs.  The deadlock
counter and the history entry are updated first (as in the source);
each action branch then checks its debug_assert preconditions and
produces the updated state and next phase.  `none` is a panic or a
failed debug_assert. -/
def Game.playAction (g : Game) (a : Action) : Option Game := do
  ensure (g.isPhaseCorrectFor a = true)
  let dc : Nat :=
    match a with
    | Action.Pass => g.deadlockCount + 1
    | Action.Continue => g.deadlockCount
    | _ => 0
  let g : Game := { g with deadlockCount := dc, history := g.history ++ [(g.currentPlayer, a)] }
  match a with
  | Action.TakeDouble color => do
    ensure (g.currentPlayer < g.players.length)
    ensure (4 ≤ g.bank.get color)
    ensure (color ≠ Gem.Gold)
    let bank := g.bank - Gems.one color - Gems.one color
    let p := g.currentP
    let p := { p with gems := p.gems + Gems.one color + Gems.one color }
    let phase := if 10 < p.gems.total then Phase.PlayerGemCapExceeded else Phase.NobleAction
    some { g with bank := bank, players := g.players.set g.currentPlayer p,
                  currentPhase := phase }
  | Action.TakeDistinct colors => do
    ensure (g.currentPlayer < g.players.length)
    ensure (colors.length ≤ 3 ∧ 0 < colors.length)
    ensure (∀ c ∈ colors, 1 ≤ g.bank.get c)
    ensure (colors.length < 3 → g.bank.distinct = colors.length)
    ensure (∀ c ∈ colors, c ≠ Gem.Gold)
    let p := g.currentP
    let p := { p with gems := p.gems + Gems.fromList colors }
    let bank := colors.foldl (fun b c => b - Gems.one c) g.bank
    let phase := if 10 < p.gems.total then Phase.PlayerGemCapExceeded else Phase.NobleAction
    some { g with bank := bank, players := g.players.set g.currentPlayer p,
                  currentPhase := phase }
  | Action.Reserve cardId => do
    ensure (g.currentPlayer < g.players.length)
    ensure (g.dealtCards.flatten.contains cardId)
    let (tier, dealt) ← removeCard g.dealtCards cardId
    let (decks, dealt, _) := dealTo g.decks dealt tier
    let getsGold := 0 < g.bank.get Gem.Gold
    let p := g.currentP
    ensure (p.reserved.length < 3)
    let p := { p with reserved := p.reserved ++ [cardId] }
    let p := if getsGold then { p with gems := p.gems + Gems.one Gem.Gold } else p
    let bank := if getsGold then g.bank - Gems.one Gem.Gold else g.bank
    let phase := if 10 < p.gems.total then Phase.PlayerGemCapExceeded else Phase.NobleAction
    some { g with decks := decks, dealtCards := dealt, bank := bank,
                  players := g.players.set g.currentPlayer p, currentPhase := phase }
  | Action.ReserveHidden tier => do
    ensure (g.currentPlayer < g.players.length)
    let (decks, dealt, newId?) := dealTo g.decks g.dealtCards tier
    let newId ← newId?
    let (_, dealt) ← removeCard dealt newId
    let getsGold := 0 < g.bank.get Gem.Gold
    let p := g.currentP
    let p := if getsGold then { p with gems := p.gems + Gems.one Gem.Gold } else p
    let bank := if getsGold then g.bank - Gems.one Gem.Gold else g.bank
    ensure (p.reserved.length < 3)
    let p := { p with reserved := p.reserved ++ [newId],
                      blindReserved := p.blindReserved ++ [newId] }
    let phase := if 10 < p.gems.total then Phase.PlayerGemCapExceeded else Phase.NobleAction
    some { g with decks := decks, dealtCards := dealt, bank := bank,
                  players := g.players.set g.currentPlayer p, currentPhase := phase }
  | Action.Purchase pr => do
    let cardId := pr.1
    let payment := pr.2
    ensure (cardId < g.cardLookup.length)
    ensure (g.currentPlayer < g.players.length)
    let card := g.cardLookup.getD cardId Card.dflt
    let p := g.currentP
    ensure (payment ∈ (p.paymentOptionsFor card).getD [])
    ensure (g.dealtCards.flatten.contains cardId ∨ p.reserved.contains cardId)
    ensure payment.legal
    ensure (p.gems - payment).legal
    let p := { p with gems := p.gems - payment,
                      developments := p.developments + Gems.one card.gem,
                      points := p.points + card.points,
                      reserved := p.reserved.filter (fun x => x ≠ cardId),
                      blindReserved := p.blindReserved.filter (fun x => x ≠ cardId) }
    let bank := g.bank + payment
    let (decks, dealt) ←
      if g.dealtCards.flatten.contains cardId then do
        let (tier, dealt) ← removeCard g.dealtCards cardId
        let (decks, dealt, _) := dealTo g.decks dealt tier
        some (decks, dealt)
      else some (g.decks, g.dealtCards)
    some { g with bank := bank, decks := decks, dealtCards := dealt,
                  players := g.players.set g.currentPlayer p,
                  currentPhase := Phase.NobleAction }
  | Action.Discard d => do
    ensure (g.currentPlayer < g.players.length)
    let p := g.currentP
    ensure (10 < p.gems.total)
    ensure (p.gems.total - d.total = 10)
    ensure ((p.gems - d).legal)
    let p := { p with gems := p.gems - d }
    some { g with players := g.players.set g.currentPlayer p, bank := g.bank + d,
                  currentPhase := Phase.NobleAction }
  | Action.AttractNoble nobleId => do
    ensure (g.currentPlayer < g.players.length)
    let idx ← g.nobles.findIdx? (fun nb => nb.id = nobleId)
    let noble := g.nobles.getD idx Noble.dflt
    ensure (noble.isAttractedTo g.currentP.developments)
    let p := g.currentP
    let p := { p with points := p.points + 3, noblePoints := p.noblePoints + 3 }
    some { g with players := g.players.set g.currentPlayer p,
                  nobles := g.nobles.eraseIdx idx,
                  currentPhase := Phase.PlayerActionEnd }
  | Action.Continue =>
    some { g with currentPlayer := (g.currentPlayer + 1) % g.players.length,
                  currentPhase := Phase.PlayerStart }
  | Action.Pass => do
    let la ← g.getLegalActions
    ensure (la.length = 1 ∧ Action.Pass ∈ la)
    match g.currentPhase with
    | Phase.PlayerStart => some { g with currentPhase := Phase.NobleAction }
    | Phase.NobleAction => some { g with currentPhase := Phase.PlayerActionEnd }
    | _ => none

/-- Fold a list of actions through Game::play_action. -/
def Game.playActions (g : Game) : List Action → Option Game
  | [] => some g
  | a :: rest => (g.playAction a).bind (fun g1 => g1.playActions rest)

/-- Game::advance_history_with from src/game_logic/game.rs: for each
recorded entry, append it to the history and then play the action
(which appends a second copy). -/
def Game.advanceHistoryWith (g : Game) : GameHistory → Option Game
  | [] => some g
  | (p, a) :: rest =>
    (({ g with history := g.history ++ [(p, a)] } : Game).playAction a).bind
      (fun g1 => g1.advanceHistoryWith rest)

/-- Game::get_winner from src/game_logic/game.rs: a fold over the
players that starts from max_points = 15 and min_developments =
u32::MAX, preferring strictly more points, then strictly fewer
developments on a points tie. -/
def Game.getWinner (g : Game) : Option Nat :=
  (g.players.enum.foldl
    (fun (st : Nat × Int × Option Nat) ip =>
      let maxPoints := st.1
      let minDev := st.2.1
      let winner := st.2.2
      let i := ip.1
      let player := ip.2
      if maxPoints < player.points then
        (player.points, player.developments.total, some i)
      else if player.points = maxPoints then
        if player.developments.total < minDev then (maxPoints, player.developments.total, some i)
        else (maxPoints, minDev, winner)
      else (maxPoints, minDev, winner))
    (15, 4294967295, none)).2.2

namespace GameHistory

/-- The fold inside GameHistory::num_moves (src/game_logic/history.rs):
count the entries whose player differs from the previous entry. -/
def numMovesGo (last : Option Nat) (moves : Int) : GameHistory → Int
  | [] => moves
  | (p, _) :: rest =>
    let moves :=
      match last with
      | some lastP => if lastP ≠ p then moves + 1 else moves
      | none => moves
    numMovesGo (some p) moves rest

/-- GameHistory::num_moves from src/game_logic/history.rs (an i32). -/
def numMoves (h : GameHistory) : Int :=
  numMovesGo none 0 h

/-- The loop of GameHistory::group_by_player (src/game_logic/history.rs):
maximal runs of consecutive same-player entries, the current run held
in an accumulator. -/
def groupGo (cur : GameHistory) (last : Option Nat) : GameHistory → List GameHistory
  | [] => if cur.isEmpty then [] else [cur]
  | (p, a) :: rest =>
    if last ≠ some p then
      (if cur.isEmpty then [] else [cur]) ++ groupGo [(p, a)] (some p) rest
    else groupGo (cur ++ [(p, a)]) last rest

/-- GameHistory::group_by_player from src/game_logic/history.rs. -/
def groupByPlayer (h : GameHistory) : List GameHistory :=
  groupGo [] none h

/-- Modelled from the spec: GameHistory::num_actions is called by
get_game_update (src/arena/protocol/web.rs) but its definition is not
part of the sources under src/; per the spec the history is the
ordered sequence of applied actions, so num_actions is its length. -/
def numActions (h : GameHistory) : Nat :=
  h.length

end GameHistory

/-- GameUpdate from src/models.rs.  The info snapshot is irrelevant to
the numbering claim and is modelled as Unit. -/
structure GameUpdate where
  info : Unit
  updateNum : Nat
deriving DecidableEq, Repr

/-- The two ArenaRequest constructors produced by get_game_update
(src/models.rs). -/
inductive ArenaRequest where
  | InitializeGame (info : Unit)
  | GameUpdates (updates : List GameUpdate)
deriving DecidableEq, Repr

/-- get_game_update from src/arena/protocol/web.rs: before any action
an InitializeGame request, afterwards a single GameUpdate carrying
update_num = num_moves + 1. -/
def getGameUpdate (h : GameHistory) : ArenaRequest :=
  match GameHistory.numActions h with
  | 0 => ArenaRequest.InitializeGame ()
  | _ + 1 => ArenaRequest.GameUpdates [⟨(), (GameHistory.numMoves h).toNat + 1⟩]

/-- Clock from src/arena/clock.rs.  Durations are Nat (nanoseconds);
the wall-clock timestamp is replaced by passing the elapsed time since
the last start() explicitly. -/
structure Clock where
  totalTime : List Nat
  increment : Nat
  currentPlayer : Option Nat
  timedOut : List Bool
deriving DecidableEq, Repr

/-- Clock::end from src/arena/clock.rs (end is a Lean keyword, hence
endTurn).  The first branch of the source compares a Duration against
zero with strict less-than, which is always false for the unsigned
Duration type; it is kept verbatim. -/
def Clock.endTurn (c : Clock) (elapsed : Nat) : Clock :=
  match c.currentPlayer with
  | none => c
  | some p =>
    let t := c.totalTime.getD p 0
    if t < 0 then { c with totalTime := c.totalTime.set p 0 }
    else if t < elapsed then
      { c with timedOut := c.timedOut.set p true, totalTime := c.totalTime.set p 0 }
    else { c with totalTime := c.totalTime.set p (t - elapsed) }

/-- Clock::time_remaining from src/arena/clock.rs. -/
def Clock.timeRemaining (c : Clock) (elapsed : Nat) : Nat :=
  match c.currentPlayer with
  | none => 0
  | some p =>
    if c.timedOut.getD p false then 0
    else if c.totalTime.getD p 0 < elapsed then 0
    else c.totalTime.getD p 0 - elapsed

/-!  Helper lemmas for the token-conservation argument. -/

/-- The elementwise sum of the players gem vectors, as folded in the
conservation debug_assert of Game::play_action (a fold of + over the
players, which over the commutative Gems monoid is the list sum). -/
def gemsSum (l : List Player) : Gems :=
  (l.map Player.gems).sum

theorem gemsSum_cons (x : Player) (xs : List Player) :
    gemsSum (x :: xs) = x.gems + gemsSum xs := by
  simp [gemsSum]

theorem gemsSum_set (l : List Player) (i : Nat) (p : Player) (hi : i < l.length) :
    gemsSum (l.set i p) = gemsSum l - (l.getD i Player.new).gems + p.gems := by
  induction l generalizing i with
  | nil => simp at hi
  | cons x xs ih =>
    cases i with
    | zero =>
      show gemsSum (p :: xs) = _
      rw [gemsSum_cons, gemsSum_cons]
      show _ = x.gems + gemsSum xs - x.gems + p.gems
      abel
    | succ j =>
      show gemsSum (x :: xs.set j p) = _
      rw [gemsSum_cons, gemsSum_cons, ih j (by simpa using hi)]
      show _ = x.gems + gemsSum xs - (xs.getD j Player.new).gems + p.gems
      abel

theorem foldl_add_one (cs : List Gem) (g : Gems) :
    cs.foldl (fun s c => s + Gems.one c) g = g + Gems.fromList cs := by
  induction cs generalizing g with
  | nil =>
    show g = g + Gems.empty
    show g = g + (0 : Gems)
    rw [add_zero]
  | cons c cs ih =>
    show cs.foldl _ (g + Gems.one c) = _
    rw [ih]
    have hc : Gems.fromList (c :: cs) = Gems.one c + Gems.fromList cs := by
      show cs.foldl _ (Gems.empty + Gems.one c) = _
      rw [ih]
      show (0 : Gems) + Gems.one c + Gems.fromList cs = _
      abel
    rw [hc]
    abel

theorem foldl_sub_one (cs : List Gem) (b : Gems) :
    cs.foldl (fun s c => s - Gems.one c) b = b - Gems.fromList cs := by
  induction cs generalizing b with
  | nil =>
    show b = b - Gems.empty
    show b = b - (0 : Gems)
    rw [sub_zero]
  | cons c cs ih =>
    show cs.foldl _ (b - Gems.one c) = _
    rw [ih]
    have hc : Gems.fromList (c :: cs) = Gems.one c + Gems.fromList cs := by
      show cs.foldl (fun s c => s + Gems.one c) (Gems.empty + Gems.one c) = _
      rw [foldl_add_one]
      show (0 : Gems) + Gems.one c + Gems.fromList cs = _
      abel
    rw [hc]
    abel

theorem ensure_eq_some {p : Prop} [Decidable p] {u : Unit} :
    ensure p = some u ↔ p := by
  unfold ensure
  split <;> simp [*]

/-- Token conservation is preserved by every successful play_action
step: the bank plus the players gem total is unchanged. -/
theorem playAction_conserves (g : Game) (a : Action) (g2 : Game)
    (h : g.playAction a = some g2) :
    g2.bank + gemsSum g2.players = g.bank + gemsSum g.players := by
  cases a <;>
    simp only [Game.playAction, Option.bind_eq_bind, Option.bind_eq_some, ensure_eq_some,
      exists_const, Option.some.injEq] at h
  case TakeDouble color =>
    obtain ⟨hphase, hcur, hbank, hgold, h⟩ := h
    subst h
    simp only [Game.currentP] at hcur ⊢
    rw [gemsSum_set _ _ _ hcur]
    abel_nf
  case TakeDistinct colors =>
    obtain ⟨hphase, hcur, hlen, hin, hdist, hgold, h⟩ := h
    subst h
    simp only [Game.currentP] at hcur ⊢
    rw [gemsSum_set _ _ _ hcur, foldl_sub_one]
    abel_nf
  case Reserve cardId =>
    obtain ⟨hphase, hcur, hhas, ⟨⟨tier, dealt⟩, hrc, hres, h⟩⟩ := h
    subst h
    simp only [Game.currentP] at hcur ⊢
    rw [gemsSum_set _ _ _ hcur]
    by_cases hg : 0 < g.bank.get Gem.Gold <;>
      simp only [hg, if_true, if_false, ite_true, ite_false] <;> abel_nf
  case ReserveHidden tier =>
    obtain ⟨hphase, hcur, ⟨newId, hdeal, ⟨⟨t2, dealt⟩, hrc, hres, h⟩⟩⟩ := h
    subst h
    simp only [Game.currentP] at hcur ⊢
    rw [gemsSum_set _ _ _ hcur]
    by_cases hg : 0 < g.bank.get Gem.Gold <;>
      simp only [hg, if_true, if_false, ite_true, ite_false] <;> abel_nf
  case Purchase pr =>
    obtain ⟨hphase, hid, hcur, hpay, hhas, hleg1, hleg2, h⟩ := h
    split at h
    · rw [Option.bind_eq_some] at h
      obtain ⟨⟨tier, dealt0⟩, hrc, h⟩ := h
      simp only [Option.some_bind, Option.some.injEq] at h
      subst h
      simp only [Game.currentP] at hcur ⊢
      rw [gemsSum_set _ _ _ hcur]
      abel_nf
    · simp only [Option.some_bind, Option.some.injEq] at h
      subst h
      simp only [Game.currentP] at hcur ⊢
      rw [gemsSum_set _ _ _ hcur]
      abel_nf
  case Discard d =>
    obtain ⟨hphase, hcur, hgt, heq, hleg, h⟩ := h
    subst h
    simp only [Game.currentP] at hcur ⊢
    rw [gemsSum_set _ _ _ hcur]
    abel_nf
  case AttractNoble nobleId =>
    obtain ⟨hphase, hcur, ⟨idx, hidx, hattr, h⟩⟩ := h
    subst h
    simp only [Game.currentP] at hcur ⊢
    rw [gemsSum_set _ _ _ hcur]
    abel_nf
  case Continue =>
    obtain ⟨hphase, h⟩ := h
    subst h
    rfl
  case Pass =>
    obtain ⟨hphase, la, hla, hone, h⟩ := h
    split at h
    · rw [Option.some.injEq] at h
      subst h
      rfl
    · rw [Option.some.injEq] at h
      subst h
      rfl
    · exact absurd h (by simp)

/-- Token conservation extends to any successful sequence of actions. -/
theorem playActions_conserves (acts : List Action) (g g2 : Game)
    (h : g.playActions acts = some g2) :
    g2.bank + gemsSum g2.players = g.bank + gemsSum g.players := by
  induction acts generalizing g with
  | nil =>
    simp only [Game.playActions, Option.some.injEq] at h
    subst h
    rfl
  | cons a rest ih =>
    simp only [Game.playActions, Option.bind_eq_bind, Option.bind_eq_some] at h
    obtain ⟨g1, h1, hrest⟩ := h
    rw [ih g1 hrest, playAction_conserves g a g1 h1]

theorem gemsSum_replicate_new (n : Nat) :
    gemsSum (List.replicate n Player.new) = 0 := by
  induction n with
  | zero => rfl
  | succ m ih =>
    rw [List.replicate_succ, gemsSum_cons, ih]
    show Gems.empty + 0 = 0
    show (0 : Gems) + 0 = 0
    rw [add_zero]

theorem getD_set_self {α : Type} (l : List α) (i : Nat) (x d : α) (h : i < l.length) :
    (l.set i x).getD i d = x := by
  induction l generalizing i with
  | nil => simp at h
  | cons y ys ih =>
    cases i with
    | zero => rfl
    | succ j => exact ih j (by simpa using h)

/-- Acceptance table of the claim: which action tags each phase
permits. -/
def acceptsSpec (ph : Phase) (a : Action) : Bool :=
  match ph, a with
  | Phase.PlayerStart, Action.TakeDouble _ => true
  | Phase.PlayerStart, Action.TakeDistinct _ => true
  | Phase.PlayerStart, Action.Reserve _ => true
  | Phase.PlayerStart, Action.ReserveHidden _ => true
  | Phase.PlayerStart, Action.Purchase _ => true
  | Phase.PlayerStart, Action.Pass => true
  | Phase.PlayerGemCapExceeded, Action.Discard _ => true
  | Phase.NobleAction, Action.AttractNoble _ => true
  | Phase.NobleAction, Action.Pass => true
  | Phase.PlayerActionEnd, Action.Continue => true
  | _, _ => false

/-- Next-phase table of the claim.  The exceeds flag is whether the
acting player ends with more than ten gems; combinations the table does
not permit never arise from a successful play_action and default to the
unchanged phase. -/
def nextPhaseSpec (ph : Phase) (a : Action) (exceeds : Bool) : Phase :=
  match a with
  | Action.TakeDouble _ => if exceeds then Phase.PlayerGemCapExceeded else Phase.NobleAction
  | Action.TakeDistinct _ => if exceeds then Phase.PlayerGemCapExceeded else Phase.NobleAction
  | Action.Reserve _ => if exceeds then Phase.PlayerGemCapExceeded else Phase.NobleAction
  | Action.ReserveHidden _ => if exceeds then Phase.PlayerGemCapExceeded else Phase.NobleAction
  | Action.Purchase _ => Phase.NobleAction
  | Action.Discard _ => Phase.NobleAction
  | Action.AttractNoble _ => Phase.PlayerActionEnd
  | Action.Pass =>
    match ph with
    | Phase.PlayerStart => Phase.NobleAction
    | Phase.NobleAction => Phase.PlayerActionEnd
    | _ => ph
  | Action.Continue => Phase.PlayerStart

/-- C4: phase machine.  is_phase_correct_for accepts exactly the
action/phase pairs of the claimed table, every successful play_action
was accepted and lands in the phase the table's transition gives, and
Continue advances current_player by one modulo the player count. -/
theorem C4_phase_machine (g : Game) (a : Action) (g2 : Game)
    (h : g.playAction a = some g2) :
    (∀ (g0 : Game) (a0 : Action), g0.isPhaseCorrectFor a0 = acceptsSpec g0.currentPhase a0) ∧
    acceptsSpec g.currentPhase a = true ∧
    g2.currentPhase =
      nextPhaseSpec g.currentPhase a
        (decide (10 < (g2.players.getD g2.currentPlayer Player.new).gems.total)) ∧
    (a = Action.Continue → g2.currentPlayer = (g.currentPlayer + 1) % g.players.length) := by
  have htab : ∀ (g0 : Game) (a0 : Action),
      g0.isPhaseCorrectFor a0 = acceptsSpec g0.currentPhase a0 := by
    intro g0 a0
    unfold Game.isPhaseCorrectFor acceptsSpec
    cases g0.currentPhase <;> cases a0 <;> rfl
  refine ⟨htab, ?_⟩
  cases a <;>
    simp only [Game.playAction, Option.bind_eq_bind, Option.bind_eq_some, ensure_eq_some,
      exists_const, Option.some.injEq] at h
  case TakeDouble color =>
    obtain ⟨hphase, hcur, hbank, hgold, h⟩ := h
    subst h
    rw [htab] at hphase
    refine ⟨hphase, ?_, by intro hc; cases hc⟩
    simp only [Game.currentP] at hcur ⊢
    by_cases hx : 10 < ((g.players.getD g.currentPlayer Player.new).gems + Gems.one color + Gems.one color).total <;>
      simp [nextPhaseSpec, List.getElem?_set_eq_of_lt _ hcur, hx]
  case TakeDistinct colors =>
    obtain ⟨hphase, hcur, hlen, hin, hdist, hgold, h⟩ := h
    subst h
    rw [htab] at hphase
    refine ⟨hphase, ?_, by intro hc; cases hc⟩
    simp only [Game.currentP] at hcur ⊢
    by_cases hx : 10 < ((g.players.getD g.currentPlayer Player.new).gems + Gems.fromList colors).total <;>
      simp [nextPhaseSpec, List.getElem?_set_eq_of_lt _ hcur, hx]
  case Reserve cardId =>
    obtain ⟨hphase, hcur, hhas, ⟨⟨tier, dealt⟩, hrc, hres, h⟩⟩ := h
    subst h
    rw [htab] at hphase
    refine ⟨hphase, ?_, by intro hc; cases hc⟩
    simp only [Game.currentP] at hcur ⊢
    by_cases hg : 0 < g.bank.get Gem.Gold <;>
      simp only [hg, if_true, if_false, ite_true, ite_false] <;>
      (by_cases hx : 10 <
          ((g.players.getD g.currentPlayer Player.new).gems + Gems.one Gem.Gold).total <;>
        simp [nextPhaseSpec, List.getElem?_set_eq_of_lt _ hcur, hx])
  case ReserveHidden tier =>
    obtain ⟨hphase, hcur, ⟨newId, hdeal, ⟨⟨t2, dealt⟩, hrc, hres, h⟩⟩⟩ := h
    subst h
    rw [htab] at hphase
    refine ⟨hphase, ?_, by intro hc; cases hc⟩
    simp only [Game.currentP] at hcur ⊢
    by_cases hg : 0 < g.bank.get Gem.Gold <;>
      simp only [hg, if_true, if_false, ite_true, ite_false] <;>
      (by_cases hx : 10 <
          ((g.players.getD g.currentPlayer Player.new).gems + Gems.one Gem.Gold).total <;>
        simp [nextPhaseSpec, List.getElem?_set_eq_of_lt _ hcur, hx])
  case Purchase pr =>
    obtain ⟨hphase, hid, hcur, hpay, hhas, hleg1, hleg2, h⟩ := h
    rw [htab] at hphase
    split at h
    · rw [Option.bind_eq_some] at h
      obtain ⟨⟨tier, dealt0⟩, hrc, h⟩ := h
      simp only [Option.some_bind, Option.some.injEq] at h
      subst h
      exact ⟨hphase, rfl, by intro hc; cases hc⟩
    · simp only [Option.some_bind, Option.some.injEq] at h
      subst h
      exact ⟨hphase, rfl, by intro hc; cases hc⟩
  case Discard d =>
    obtain ⟨hphase, hcur, hgt, heq, hleg, h⟩ := h
    subst h
    rw [htab] at hphase
    exact ⟨hphase, rfl, by intro hc; cases hc⟩
  case AttractNoble nobleId =>
    obtain ⟨hphase, hcur, ⟨idx, hidx, hattr, h⟩⟩ := h
    subst h
    rw [htab] at hphase
    exact ⟨hphase, rfl, by intro hc; cases hc⟩
  case Continue =>
    obtain ⟨hphase, h⟩ := h
    subst h
    rw [htab] at hphase
    exact ⟨hphase, rfl, fun _ => rfl⟩
  case Pass =>
    obtain ⟨hphase, la, hla, hone, h⟩ := h
    rw [htab] at hphase
    split at h
    · next heq =>
      rw [Option.some.injEq] at h
      subst h
      exact ⟨hphase, by simp [nextPhaseSpec, heq], by intro hc; cases hc⟩
    · next heq =>
      rw [Option.some.injEq] at h
      subst h
      exact ⟨hphase, by simp [nextPhaseSpec, heq], by intro hc; cases hc⟩
    · exact absurd h (by simp)

/-- Shared concrete state: a minimal two-player game sitting in
PlayerActionEnd with empty decks and board, used by several witnesses. -/
def gEnd0 : Game :=
  { players := [Player.new, Player.new], bank := Gems.start 2, decks := [[], [], []],
    currentPlayer := 0, nobles := [], dealtCards := [[], [], []],
    currentPhase := Phase.PlayerActionEnd, cardLookup := [], history := [],
    deadlockCount := 0 }

/-- The state gEnd0 reaches by playing Continue. -/
def gEnd1 : Game :=
  { gEnd0 with currentPlayer := 1, currentPhase := Phase.PlayerStart,
               history := [(0, Action.Continue)] }

/-- C4 witness: the phase machine evaluated on a concrete Continue. -/
theorem C4_phase_machine_witness :
    (∀ (g0 : Game) (a0 : Action), g0.isPhaseCorrectFor a0 = acceptsSpec g0.currentPhase a0) ∧
    acceptsSpec gEnd0.currentPhase Action.Continue = true ∧
    gEnd1.currentPhase =
      nextPhaseSpec gEnd0.currentPhase Action.Continue
        (decide (10 < (gEnd1.players.getD gEnd1.currentPlayer Player.new).gems.total)) ∧
    (Action.Continue = Action.Continue →
      gEnd1.currentPlayer = (gEnd0.currentPlayer + 1) % gEnd0.players.length) :=
  C4_phase_machine gEnd0 Action.Continue gEnd1 (by decide)

/-- C1: token conservation.  For a game created with n players (2..4)
and any sequence of actions accepted by play_action, the bank plus the
elementwise sum of the players gem vectors equals the starting bank. -/
theorem C1_token_conservation (n : Nat) (lookup deck1 deck2 deck3 : List Card)
    (nobles : List Noble) (acts : List Action) (g2 : Game)
    (hn2 : 2 ≤ n) (hn4 : n ≤ 4)
    (hrun : (Game.newWith n lookup deck1 deck2 deck3 nobles).playActions acts = some g2) :
    g2.bank + gemsSum g2.players = Gems.start n := by
  rw [playActions_conserves acts _ g2 hrun]
  show Gems.start n + gemsSum (List.replicate n Player.new) = Gems.start n
  rw [gemsSum_replicate_new, add_zero]

/-- C1 witness at a concrete two-player game. -/
theorem C1_token_conservation_witness :
    (Game.newWith 2 [] [] [] [] []).bank + gemsSum (Game.newWith 2 [] [] [] [] []).players =
      Gems.start 2 :=
  C1_token_conservation 2 [] [] [] [] [] [] (Game.newWith 2 [] [] [] [] [])
    (by decide) (by decide) rfl

theorem exists_pos_of_total_pos (g : Gems) (hleg : g.legal) (h : 0 < g.total) :
    ∃ c ∈ Gem.all, 0 < g.get c := by
  obtain ⟨h1, h2, h3, h4, h5, h6⟩ := hleg
  unfold Gems.total at h
  by_contra hno
  push_neg at hno
  have n1 := hno Gem.Onyx (by simp [Gem.all])
  have n2 := hno Gem.Sapphire (by simp [Gem.all])
  have n3 := hno Gem.Emerald (by simp [Gem.all])
  have n4 := hno Gem.Ruby (by simp [Gem.all])
  have n5 := hno Gem.Diamond (by simp [Gem.all])
  have n6 := hno Gem.Gold (by simp [Gem.all])
  simp only [Gems.get] at n1 n2 n3 n4 n5 n6
  omega

theorem sub_one_legal (g : Gems) (c : Gem) (hleg : g.legal) (hc : 0 < g.get c) :
    (g - Gems.one c).legal := by
  obtain ⟨h1, h2, h3, h4, h5, h6⟩ := hleg
  cases c <;> simp [Gems.get, Gems.one, Gems.sub_def, Gems.legal] at * <;> omega

theorem sub_one_total (g : Gems) (c : Gem) :
    (g - Gems.one c).total = g.total - 1 := by
  cases c <;> simp [Gems.one, Gems.sub_def, Gems.total] <;> ring

theorem chooseGemsGo_ne_nil_acc (recur : Gems → Gems → List Gems) (gems running : Gems)
    (cs : List Gem) (acc : List Gems) (hacc : acc ≠ []) :
    chooseGemsGo recur gems running cs acc ≠ [] := by
  induction cs generalizing acc with
  | nil => exact hacc
  | cons c cs ih =>
    show chooseGemsGo recur gems running cs _ ≠ []
    apply ih
    dsimp only
    split
    · exact hsExtend_ne_nil_left hacc
    · exact hacc

theorem chooseGemsGo_ne_nil (recur : Gems → Gems → List Gems) (gems running : Gems)
    (cs : List Gem) (acc : List Gems) (c : Gem) (hc : c ∈ cs) (hpos : 0 < gems.get c)
    (hrec : recur (gems - Gems.one c) (running + Gems.one c) ≠ []) :
    chooseGemsGo recur gems running cs acc ≠ [] := by
  induction cs generalizing acc with
  | nil => cases hc
  | cons d cs ih =>
    rcases List.mem_cons.mp hc with rfl | hmem
    · show chooseGemsGo recur gems running cs _ ≠ []
      apply chooseGemsGo_ne_nil_acc
      dsimp only
      rw [if_pos hpos]
      exact hsExtend_ne_nil_right hrec
    · exact ih _ hmem

theorem chooseGems_ne_nil (n : Nat) (gems running : Gems) (hleg : gems.legal)
    (hn : (n : Int) ≤ gems.total) :
    chooseGems gems running n ≠ [] := by
  induction n generalizing gems running with
  | zero => simp [chooseGems]
  | succ m ih =>
    have hpos : 0 < gems.total := by
      have hcast : ((m : Int) + 1) ≤ gems.total := by exact_mod_cast hn
      omega
    obtain ⟨c, hcmem, hc⟩ := exists_pos_of_total_pos gems hleg hpos
    show chooseGemsGo _ gems running Gem.all [] ≠ []
    apply chooseGemsGo_ne_nil _ _ _ _ _ c hcmem hc
    apply ih
    · exact sub_one_legal gems c hleg hc
    · rw [sub_one_total]
      have hcast : ((m : Int) + 1) ≤ gems.total := by exact_mod_cast hn
      omega

theorem ite_some_some_ne_none {c : Prop} [Decidable c] {α : Type} (a b : α) :
    (if c then some a else some b) ≠ none := by
  split <;> simp

theorem ite_fallback_ne_nil {α : Type} (L : List α) (x : α) (l : List α)
    (h : (if L.length = 0 then some [x] else some L) = some l) : l ≠ [] := by
  split at h
  · rw [Option.some.injEq] at h
    subst h
    simp
  · next hlen =>
    rw [Option.some.injEq] at h
    subst h
    intro hnil
    rw [hnil] at hlen
    simp at hlen

/-- C5: get_legal_actions returns None exactly when the deadlock
counter has reached twice the player count or the game is won
(PlayerActionEnd, last player, somebody at 15 points or more); on a
state whose current_player index is in range (and whose gem total
exceeds 10 in PlayerGemCapExceeded) it otherwise returns a non-empty
list, with PlayerActionEnd giving exactly [Continue]. -/
theorem C5_termination (g : Game)
    (hcur : g.currentPlayer < g.players.length)
    (hcap : g.currentPhase = Phase.PlayerGemCapExceeded →
      g.currentP.gems.legal ∧ 10 < g.currentP.gems.total) :
    (g.getLegalActions = none ↔
      (g.deadlockCount = 2 * g.players.length ∨
        (g.currentPhase = Phase.PlayerActionEnd ∧
          g.currentPlayer = g.players.length - 1 ∧
          ∃ p ∈ g.players, 15 ≤ p.points))) ∧
    (∀ l, g.getLegalActions = some l → l ≠ []) ∧
    (g.currentPhase = Phase.PlayerActionEnd →
      ∀ l, g.getLegalActions = some l → l = [Action.Continue]) := by
  obtain ⟨players, bank, decks, cur, nobles, dealt, phase, lookup, hist, dc⟩ := g
  by_cases hdc : dc = 2 * players.length
  · dsimp only [Game.getLegalActions, Game.currentP]
    rw [if_pos hdc]
    exact ⟨by simp [hdc], by simp, by simp⟩
  · cases phase with
    | NobleAction =>
      dsimp only [Game.getLegalActions, Game.currentP] at *
      rw [if_neg hdc]
      refine ⟨?_, ?_, ?_⟩
      · constructor
        · intro hnone
          split at hnone <;> cases hnone
        · rintro (h | ⟨hend, _⟩)
          · exact absurd h hdc
          · cases hend
      · intro l hl
        split at hl <;> rw [Option.some.injEq] at hl <;> subst hl
        · simp
        · next hlen =>
          intro hnil
          rw [hnil] at hlen
          simp at hlen
      · intro hend
        cases hend
    | PlayerActionEnd =>
      dsimp only [Game.getLegalActions, Game.currentP] at *
      rw [if_neg hdc]
      refine ⟨?_, ?_, ?_⟩
      · constructor
        · intro hnone
          split at hnone
          · next hc =>
            refine Or.inr ⟨rfl, hc.1, ?_⟩
            obtain ⟨p, hpmem, hp⟩ := List.any_eq_true.mp hc.2
            exact ⟨p, hpmem, by simpa using hp⟩
          · cases hnone
        · rintro (h | ⟨_, hlast, p, hpmem, hp⟩)
          · exact absurd h hdc
          · rw [if_pos ⟨hlast, List.any_eq_true.mpr ⟨p, hpmem, by simpa using hp⟩⟩]
      · intro l hl
        split at hl
        · cases hl
        · rw [Option.some.injEq] at hl
          subst hl
          simp
      · intro hx l hl
        split at hl
        · cases hl
        · rw [Option.some.injEq] at hl
          exact hl.symm
    | PlayerGemCapExceeded =>
      dsimp only [Game.getLegalActions, Game.currentP] at *
      rw [if_neg hdc]
      obtain ⟨hleg, hgt⟩ := hcap rfl
      refine ⟨?_, ?_, ?_⟩
      · constructor
        · intro hnone
          cases hnone
        · rintro (h | ⟨hend, _⟩)
          · exact absurd h hdc
          · cases hend
      · intro l hl
        rw [Option.some.injEq] at hl
        subst hl
        intro hnil
        rw [List.map_eq_nil_iff] at hnil
        refine chooseGems_ne_nil _ _ _ hleg ?_ hnil
        rw [Int.toNat_of_nonneg (by omega)]
        omega
      · intro hend
        cases hend
    | PlayerStart =>
      dsimp only [Game.getLegalActions, Game.currentP] at *
      rw [if_neg hdc]
      refine ⟨?_, ?_, ?_⟩
      · constructor
        · intro hnone
          exact absurd hnone (ite_some_some_ne_none _ _)
        · rintro (h | ⟨hend, _⟩)
          · exact absurd h hdc
          · cases hend
      · intro l hl
        exact ite_fallback_ne_nil _ _ _ hl
      · intro hend
        cases hend

/-- C5 witness at a concrete PlayerActionEnd state. -/
theorem C5_termination_witness :
    (gEnd0.getLegalActions = none ↔
      (gEnd0.deadlockCount = 2 * gEnd0.players.length ∨
        (gEnd0.currentPhase = Phase.PlayerActionEnd ∧
          gEnd0.currentPlayer = gEnd0.players.length - 1 ∧
          ∃ p ∈ gEnd0.players, 15 ≤ p.points))) ∧
    (∀ l, gEnd0.getLegalActions = some l → l ≠ []) ∧
    (gEnd0.currentPhase = Phase.PlayerActionEnd →
      ∀ l, gEnd0.getLegalActions = some l → l = [Action.Continue]) :=
  C5_termination gEnd0 (by decide) (by decide)

theorem numMovesGo_acc (rest : GameHistory) (last : Option Nat) (m : Int) :
    GameHistory.numMovesGo last m rest = m + GameHistory.numMovesGo last 0 rest := by
  induction rest generalizing last m with
  | nil => simp [GameHistory.numMovesGo]
  | cons e rs ih =>
    obtain ⟨p, a⟩ := e
    cases last with
    | none =>
      simp only [GameHistory.numMovesGo]
      exact ih (some p) m
    | some q =>
      by_cases hq : q = p
      · subst hq
        simp only [GameHistory.numMovesGo, ne_eq, not_true_eq_false, ite_false]
        exact ih (some q) m
      · simp only [GameHistory.numMovesGo, ne_eq, hq, not_false_eq_true, ite_true]
        rw [ih (some p) (m + 1), ih (some p) (0 + 1)]
        ring

theorem groupGo_length (rest : GameHistory) (cur : GameHistory) (q : Nat)
    (hcur : cur ≠ []) :
    ((GameHistory.groupGo cur (some q) rest).length : Int) =
      GameHistory.numMovesGo (some q) 0 rest + 1 := by
  induction rest generalizing cur q with
  | nil =>
    simp only [GameHistory.groupGo, GameHistory.numMovesGo]
    rw [if_neg (by simpa [List.isEmpty_iff] using hcur)]
    rfl
  | cons e rs ih =>
    obtain ⟨p, a⟩ := e
    by_cases hq : q = p
    · subst hq
      simp only [GameHistory.groupGo, GameHistory.numMovesGo, ne_eq, not_true_eq_false,
        ite_false]
      exact ih (cur ++ [(q, a)]) q (by simp)
    · simp only [GameHistory.groupGo, GameHistory.numMovesGo]
      rw [if_pos (show (some q ≠ some p) by simpa using hq)]
      rw [if_neg (by simpa [List.isEmpty_iff] using hcur)]
      rw [if_pos (show q ≠ p from hq)]
      rw [List.length_append]
      push_cast
      rw [ih [(p, a)] p (by simp)]
      rw [numMovesGo_acc rs (some p) 1]
      simp only [List.length_singleton]
      push_cast
      ring

/-- C7 amended: num_moves equals the chunk count of group_by_player
minus one on non-empty histories (it counts player transitions), and
both are zero on the empty history. -/
theorem C7_num_moves_amended (h : GameHistory) :
    ((GameHistory.groupByPlayer h).length : Int) =
      GameHistory.numMoves h + (if h = [] then 0 else 1) := by
  cases h with
  | nil => rfl
  | cons e rest =>
    obtain ⟨p, a⟩ := e
    unfold GameHistory.groupByPlayer GameHistory.numMoves
    simp only [GameHistory.groupGo, GameHistory.numMovesGo]
    rw [if_pos (show (none ≠ some p) by simp)]
    rw [if_pos (show ([] : GameHistory).isEmpty = true by rfl)]
    rw [List.nil_append]
    rw [groupGo_length rest [(p, a)] p (by simp)]
    simp

/-- C7 counterexample: a single-entry history has one chunk but
num_moves is zero. -/
theorem C7_counterexample :
    GameHistory.numMoves [(0, Action.Pass)] = 0 ∧
    (GameHistory.groupByPlayer [(0, Action.Pass)]).length = 1 ∧
    GameHistory.numMoves [(0, Action.Pass)] ≠
      ((GameHistory.groupByPlayer [(0, Action.Pass)]).length : Int) := by
  refine ⟨rfl, rfl, by decide⟩

/-- C9 amended: a non-initial upstream update carries update_num equal
to num_moves + 1 (one more than the count of player transitions, i.e.
the number of grouped player turns), not the count of applied actions. -/
theorem C9_update_num_amended (h : GameHistory) (hne : GameHistory.numActions h ≠ 0) :
    getGameUpdate h =
      ArenaRequest.GameUpdates [⟨(), (GameHistory.numMoves h).toNat + 1⟩] := by
  cases h with
  | nil => exact absurd rfl hne
  | cons e rest => rfl

/-- C9 witness on a concrete two-action history. -/
theorem C9_update_num_amended_witness :
    getGameUpdate [(0, Action.Pass), (0, Action.Pass)] =
      ArenaRequest.GameUpdates
        [⟨(), (GameHistory.numMoves [(0, Action.Pass), (0, Action.Pass)]).toNat + 1⟩] :=
  C9_update_num_amended [(0, Action.Pass), (0, Action.Pass)] (by decide)

/-- C9 counterexample: after two applied actions by the same player the
update carries update_num 1, not 2. -/
theorem C9_counterexample :
    getGameUpdate [(0, Action.Pass), (0, Action.Pass)] =
      ArenaRequest.GameUpdates [⟨(), 1⟩] ∧
    GameHistory.numActions [(0, Action.Pass), (0, Action.Pass)] = 2 ∧
    (1 : Nat) ≠ 2 := by
  refine ⟨rfl, rfl, by decide⟩

/-- Terminal state for the winner-rule divergence: both players hold 16
points with equal (zero) development totals. -/
def gTie : Game :=
  { players := [{ Player.new with points := 16 }, { Player.new with points := 16 }],
    bank := Gems.start 2, decks := [[], [], []], currentPlayer := 1, nobles := [],
    dealtCards := [[], [], []], currentPhase := Phase.PlayerActionEnd, cardLookup := [],
    history := [], deadlockCount := 0 }

/-- C2: the code returns the first tied player instead of no winner on
a full points-and-developments tie. -/
theorem C2_winner_tie_divergence :
    gTie.getLegalActions = none ∧
    gTie.players.map Player.points = [16, 16] ∧
    gTie.players.map (fun p => p.developments.total) = [0, 0] ∧
    gTie.getWinner = some 0 := by
  refine ⟨by decide, by decide, by decide, by decide⟩

/-- C8: clock semantics of end() and time_remaining() with the elapsed
time since the last start() passed explicitly. -/
theorem C8_clock_semantics (c : Clock) (e : Nat) :
    (c.currentPlayer = none → c.endTurn e = c ∧ c.timeRemaining e = 0) ∧
    (∀ p, c.currentPlayer = some p → p < c.totalTime.length → p < c.timedOut.length →
      (c.totalTime.getD p 0 < e →
        (c.endTurn e).timedOut.getD p false = true ∧ (c.endTurn e).totalTime.getD p 0 = 0) ∧
      (e ≤ c.totalTime.getD p 0 →
        (c.endTurn e).totalTime.getD p 0 = c.totalTime.getD p 0 - e ∧
        (c.endTurn e).timedOut = c.timedOut) ∧
      (c.timedOut.getD p false = true → c.timeRemaining e = 0) ∧
      (c.timedOut.getD p false = false →
        (c.timeRemaining e : Int) = max 0 ((c.totalTime.getD p 0 : Int) - (e : Int)))) := by
  constructor
  · intro hnone
    unfold Clock.endTurn Clock.timeRemaining
    rw [hnone]
    exact ⟨rfl, rfl⟩
  · intro p hp hlt hlo
    unfold Clock.endTurn Clock.timeRemaining
    rw [hp]
    dsimp only
    have hneg : ¬ (c.totalTime.getD p 0 < 0) := by omega
    rw [if_neg hneg]
    refine ⟨?_, ?_, ?_, ?_⟩
    · intro hlt2
      rw [if_pos hlt2]
      exact ⟨getD_set_self _ _ _ _ hlo, getD_set_self _ _ _ _ hlt⟩
    · intro hle
      rw [if_neg (by omega)]
      exact ⟨getD_set_self _ _ _ _ hlt, rfl⟩
    · intro hto
      rw [if_pos hto]
    · intro hto
      rw [hto]
      simp only [Bool.false_eq_true, if_false, ite_false]
      by_cases hlt2 : c.totalTime.getD p 0 < e
      · rw [if_pos hlt2]
        have hx : (c.totalTime.getD p 0 : Int) - (e : Int) ≤ 0 := by omega
        rw [max_eq_left hx]
        simp
      · rw [if_neg hlt2]
        have hx : (0 : Int) ≤ (c.totalTime.getD p 0 : Int) - (e : Int) := by omega
        rw [max_eq_right hx]
        omega

/-- C8 witness on a concrete clock. -/
theorem C8_clock_semantics_witness :
    let c : Clock := ⟨[5], 1, some 0, [false]⟩
    ((c.totalTime.getD 0 0 < 3 →
        (c.endTurn 3).timedOut.getD 0 false = true ∧ (c.endTurn 3).totalTime.getD 0 0 = 0) ∧
      (3 ≤ c.totalTime.getD 0 0 →
        (c.endTurn 3).totalTime.getD 0 0 = c.totalTime.getD 0 0 - 3 ∧
        (c.endTurn 3).timedOut = c.timedOut) ∧
      (c.timedOut.getD 0 false = true → c.timeRemaining 3 = 0) ∧
      (c.timedOut.getD 0 false = false →
        (c.timeRemaining 3 : Int) = max 0 ((c.totalTime.getD 0 0 : Int) - (3 : Int)))) :=
  (C8_clock_semantics ⟨[5], 1, some 0, [false]⟩ 3).2 0 rfl (by decide) (by decide)

theorem legal_get_nonneg (g : Gems) (hleg : g.legal) (c : Gem) : 0 ≤ g.get c := by
  obtain ⟨h1, h2, h3, h4, h5, h6⟩ := hleg
  cases c <;> simpa [Gems.get]

theorem get_add (a b : Gems) (c : Gem) : (a + b).get c = a.get c + b.get c := by
  cases c <;> rfl

theorem get_sub (a b : Gems) (c : Gem) : (a - b).get c = a.get c - b.get c := by
  cases c <;> rfl

theorem get_one_self (c : Gem) : (Gems.one c).get c = 1 := by
  cases c <;> rfl

theorem get_one_nonneg (c d : Gem) : 0 ≤ (Gems.one c).get d := by
  cases c <;> cases d <;> decide

theorem get_empty (c : Gem) : Gems.empty.get c = 0 := by
  cases c <;> rfl

theorem total_add (a b : Gems) : (a + b).total = a.total + b.total := by
  simp [Gems.total, Gems.add_def]
  ring

theorem total_sub (a b : Gems) : (a - b).total = a.total - b.total := by
  simp [Gems.total, Gems.sub_def]
  ring

theorem one_total (c : Gem) : (Gems.one c).total = 1 := by
  cases c <;> rfl

theorem empty_total : Gems.empty.total = 0 := rfl

theorem posSum_sub_one (cost : Gems) (c : Gem) (h : 0 < cost.get c) :
    posSum (cost - Gems.one c) = posSum cost - 1 := by
  cases c <;> simp [posSum, Gems.sub_def, Gems.one, Gems.get] at * <;> omega

theorem posSum_pos (cost : Gems) (c : Gem) (h : 0 < cost.get c) : 0 < posSum cost := by
  cases c <;> simp [posSum, Gems.get] at * <;> omega

theorem sub_one_gold_eq (cost : Gems) (c : Gem) (hc : c ≠ Gem.Gold) :
    (cost - Gems.one c).gold = cost.gold := by
  cases c <;> simp [Gems.sub_def, Gems.one] at *

theorem sub_one_get_other (g : Gems) (c d : Gem) (hne : c ≠ d) :
    (g - Gems.one c).get d = g.get d := by
  cases c <;> cases d <;> simp [Gems.sub_def, Gems.one, Gems.get] at *

theorem ite_step (acc d : Int) : (if 0 < d then acc + d else acc) = acc + max 0 d := by
  split_ifs <;> omega

/-- Closed form of the deficit fold. -/
theorem deficitOf_expand (cost gems : Gems) :
    deficitOf cost gems =
      max 0 (cost.onyx - gems.onyx) + max 0 (cost.sapphire - gems.sapphire) +
      max 0 (cost.emerald - gems.emerald) + max 0 (cost.ruby - gems.ruby) +
      max 0 (cost.diamond - gems.diamond) + max 0 (cost.gold - gems.gold) := by
  simp only [deficitOf, Gem.all, List.foldl_cons, List.foldl_nil, Gems.get, ite_step]
  ring

/-- The gem_match color loop hands back only members of the
accumulator or of one of the recursive branch result sets. -/
theorem gemMatchGo_mem_forward (recur : Gems → Gems → Gems → List Gems)
    (cost gems running : Gems) (cs : List Gem) (acc : List Gems) (P : Gems)
    (h : P ∈ gemMatchGo recur cost gems running cs acc) :
    P ∈ acc ∨ ∃ c ∈ cs, 0 < cost.get c ∧
      ((0 < gems.get c ∧
          P ∈ recur (cost - Gems.one c) (gems - Gems.one c) (running + Gems.one c)) ∨
       (0 < gems.get Gem.Gold ∧
          P ∈ recur (cost - Gems.one c) (gems - Gems.one Gem.Gold) (running + Gems.one Gem.Gold))) := by
  induction cs generalizing acc with
  | nil => exact Or.inl h
  | cons c cs ih =>
    have h2 := ih _ h
    rcases h2 with hacc | ⟨d, hdmem, hd⟩
    · dsimp only at hacc
      by_cases hc : 0 < cost.get c
      · rw [if_pos hc] at hacc
        by_cases hgG : 0 < gems.get Gem.Gold
        · rw [if_pos hgG, mem_hsExtend] at hacc
          rcases hacc with hacc | hgold
          · by_cases hgc : 0 < gems.get c
            · rw [if_pos hgc, mem_hsExtend] at hacc
              rcases hacc with hacc | hrec
              · exact Or.inl hacc
              · exact Or.inr ⟨c, by simp, hc, Or.inl ⟨hgc, hrec⟩⟩
            · rw [if_neg hgc] at hacc
              exact Or.inl hacc
          · exact Or.inr ⟨c, by simp, hc, Or.inr ⟨hgG, hgold⟩⟩
        · rw [if_neg hgG] at hacc
          by_cases hgc : 0 < gems.get c
          · rw [if_pos hgc, mem_hsExtend] at hacc
            rcases hacc with hacc | hrec
            · exact Or.inl hacc
            · exact Or.inr ⟨c, by simp, hc, Or.inl ⟨hgc, hrec⟩⟩
          · rw [if_neg hgc] at hacc
            exact Or.inl hacc
      · rw [if_neg hc] at hacc
        exact Or.inl hacc
    · exact Or.inr ⟨d, by simp [hdmem], hd⟩

theorem gemMatchGo_ne_nil_acc (recur : Gems → Gems → Gems → List Gems)
    (cost gems running : Gems) (cs : List Gem) (acc : List Gems) (hacc : acc ≠ []) :
    gemMatchGo recur cost gems running cs acc ≠ [] := by
  induction cs generalizing acc with
  | nil => exact hacc
  | cons c cs ih =>
    show gemMatchGo recur cost gems running cs _ ≠ []
    apply ih
    dsimp only
    split
    · split
      · split
        · exact hsExtend_ne_nil_left (hsExtend_ne_nil_left hacc)
        · exact hsExtend_ne_nil_left hacc
      · split
        · exact hsExtend_ne_nil_left hacc
        · exact hacc
    · exact hacc

theorem gemMatchGo_ne_nil (recur : Gems → Gems → Gems → List Gems)
    (cost gems running : Gems) (cs : List Gem) (acc : List Gems) (c : Gem)
    (hmem : c ∈ cs) (hc : 0 < cost.get c)
    (hbr : (0 < gems.get c ∧
             recur (cost - Gems.one c) (gems - Gems.one c) (running + Gems.one c) ≠ []) ∨
           (0 < gems.get Gem.Gold ∧
             recur (cost - Gems.one c) (gems - Gems.one Gem.Gold) (running + Gems.one Gem.Gold) ≠ [])) :
    gemMatchGo recur cost gems running cs acc ≠ [] := by
  induction cs generalizing acc with
  | nil => cases hmem
  | cons d cs ih =>
    rcases List.mem_cons.mp hmem with rfl | hmem2
    · show gemMatchGo recur cost gems running cs _ ≠ []
      apply gemMatchGo_ne_nil_acc
      dsimp only
      rw [if_pos hc]
      rcases hbr with ⟨hgc, hne⟩ | ⟨hgG, hne⟩
      · rw [if_pos hgc]
        split
        · exact hsExtend_ne_nil_left (hsExtend_ne_nil_right hne)
        · exact hsExtend_ne_nil_right hne
      · rw [if_pos hgG]
        exact hsExtend_ne_nil_right hne
    · exact ih _ hmem2

theorem gemMatchF_mem_bounds (fuel : Nat) :
    ∀ (cost gems running P : Gems), gems.legal →
      P ∈ gemMatchF fuel cost gems running →
      (∀ c, running.get c ≤ P.get c ∧ P.get c - running.get c ≤ gems.get c) ∧
      P.total = running.total + cost.total := by
  induction fuel with
  | zero => intro cost gems running P _ h; cases h
  | succ fuel ih =>
    intro cost gems running P hleg h
    dsimp only [gemMatchF] at h
    by_cases h0 : cost.total = 0
    · rw [if_pos h0] at h
      rcases List.mem_singleton.mp h with rfl
      refine ⟨fun c => ⟨le_refl _, ?_⟩, by omega⟩
      have := legal_get_nonneg gems hleg c
      omega
    · rw [if_neg h0] at h
      by_cases hg0 : gems.total = 0
      · rw [if_pos hg0] at h
        cases h
      · rw [if_neg hg0] at h
        have h2 := gemMatchGo_mem_forward _ _ _ _ _ _ _ h
        rcases h2 with hmem | ⟨c, hcmem, hc, hbr⟩
        · cases hmem
        rcases hbr with ⟨hgc, hrec⟩ | ⟨hgG, hrec⟩
        · obtain ⟨hb, ht⟩ := ih _ _ _ _ (sub_one_legal gems c hleg hgc) hrec
          constructor
          · intro d
            have hbd := hb d
            have h1 := get_add running (Gems.one c) d
            have h2 := get_sub gems (Gems.one c) d
            have h3 := get_one_nonneg c d
            omega
          · rw [ht]
            simp only [total_add, total_sub, one_total]
            omega
        · obtain ⟨hb, ht⟩ := ih _ _ _ _ (sub_one_legal gems Gem.Gold hleg hgG) hrec
          constructor
          · intro d
            have hbd := hb d
            have h1 := get_add running (Gems.one Gem.Gold) d
            have h2 := get_sub gems (Gems.one Gem.Gold) d
            have h3 := get_one_nonneg Gem.Gold d
            omega
          · rw [ht]
            simp only [total_add, total_sub, one_total]
            omega

theorem exists_pos_nonGold (cost : Gems) (hleg : cost.legal) (hgold : cost.gold = 0)
    (h0 : cost.total ≠ 0) :
    ∃ c ∈ Gem.all, c ≠ Gem.Gold ∧ 0 < cost.get c := by
  obtain ⟨h1, h2, h3, h4, h5, h6⟩ := hleg
  unfold Gems.total at h0
  by_contra hno
  push_neg at hno
  have n1 := hno Gem.Onyx (by simp [Gem.all]) (by simp)
  have n2 := hno Gem.Sapphire (by simp [Gem.all]) (by simp)
  have n3 := hno Gem.Emerald (by simp [Gem.all]) (by simp)
  have n4 := hno Gem.Ruby (by simp [Gem.all]) (by simp)
  have n5 := hno Gem.Diamond (by simp [Gem.all]) (by simp)
  simp only [Gems.get] at n1 n2 n3 n4 n5
  omega

theorem deficit_spend_match (cost gems : Gems) (c : Gem) (hcg : c ≠ Gem.Gold) :
    deficitOf (cost - Gems.one c) (gems - Gems.one c) = deficitOf cost gems := by
  rw [deficitOf_expand, deficitOf_expand]
  cases c <;> simp [Gems.sub_def, Gems.one] at *

theorem deficit_spend_gold (cost gems : Gems) (c : Gem) (hcg : c ≠ Gem.Gold)
    (hc : 0 < cost.get c) (hgc : gems.get c ≤ 0) (hcg0 : cost.gold = 0)
    (hgold : 0 < gems.gold) :
    deficitOf (cost - Gems.one c) (gems - Gems.one Gem.Gold) = deficitOf cost gems - 1 := by
  rw [deficitOf_expand, deficitOf_expand]
  cases c <;> simp [Gems.sub_def, Gems.one, Gems.get] at * <;> omega

theorem deficit_ge_term (cost gems : Gems) (c : Gem) (hcg : c ≠ Gem.Gold) :
    max 0 (cost.get c - gems.get c) ≤ deficitOf cost gems := by
  rw [deficitOf_expand]
  cases c <;> simp [Gems.get] at * <;> omega

theorem sub_one_cost_legal (cost : Gems) (c : Gem) (hleg : cost.legal)
    (hc : 0 < cost.get c) : (cost - Gems.one c).legal :=
  sub_one_legal cost c hleg hc

theorem gemMatchF_ne_nil (fuel : Nat) :
    ∀ (cost gems running : Gems), posSum cost < fuel → cost.legal → cost.gold = 0 →
      gems.legal → deficitOf cost gems ≤ gems.get Gem.Gold →
      gemMatchF fuel cost gems running ≠ [] := by
  induction fuel with
  | zero => intro cost gems running hf; omega
  | succ fuel ih =>
    intro cost gems running hf hcl hcg0 hgl hdef
    dsimp only [gemMatchF]
    by_cases h0 : cost.total = 0
    · rw [if_pos h0]
      simp
    · rw [if_neg h0]
      by_cases hg0 : gems.total = 0
      · exfalso
        obtain ⟨w1, w2, w3, w4, w5, w6⟩ := hgl
        obtain ⟨k1, k2, k3, k4, k5, k6⟩ := hcl
        rw [deficitOf_expand] at hdef
        unfold Gems.total at h0 hg0
        simp only [Gems.get] at hdef
        omega
      · rw [if_neg hg0]
        obtain ⟨c, hcmem, hcne, hc⟩ := exists_pos_nonGold cost hcl hcg0 h0
        have hfuel2 : posSum (cost - Gems.one c) < fuel := by
          have hps := posSum_sub_one cost c hc
          have hpp := posSum_pos cost c hc
          omega
        by_cases hgc : 0 < gems.get c
        · apply gemMatchGo_ne_nil _ _ _ _ _ _ c hcmem hc
          refine Or.inl ⟨hgc, ?_⟩
          apply ih _ _ _ hfuel2 (sub_one_cost_legal cost c hcl hc)
            (by rw [sub_one_gold_eq cost c hcne]; exact hcg0)
            (sub_one_legal gems c hgl hgc)
          rw [deficit_spend_match cost gems c hcne, sub_one_get_other gems c Gem.Gold hcne]
          exact hdef
        · have hgold : 0 < gems.get Gem.Gold := by
            have hterm := deficit_ge_term cost gems c hcne
            push_neg at hgc
            omega
          apply gemMatchGo_ne_nil _ _ _ _ _ _ c hcmem hc
          refine Or.inr ⟨hgold, ?_⟩
          apply ih _ _ _ hfuel2 (sub_one_cost_legal cost c hcl hc)
            (by rw [sub_one_gold_eq cost c hcne]; exact hcg0)
            (sub_one_legal gems Gem.Gold hgl hgold)
          rw [deficit_spend_gold cost gems c hcne hc (by push_neg at hgc; exact hgc) hcg0 hgold]
          rw [get_sub, get_one_self]
          omega

/-- Affordability in the words of the spec: the color deficits of the
discounted cost can all be covered by the wild gems in the wallet. -/
def affordableSpec (C W : Gems) : Prop :=
  deficitOf C W ≤ W.get Gem.Gold

theorem discounted_toGems_legal (c : Cost) (d : Gems) :
    ((c.discountedWith d).toGems).legal := by
  simp only [Cost.discountedWith, Cost.toGems, Gems.legal]
  omega

theorem discounted_toGems_gold (c : Cost) (d : Gems) :
    ((c.discountedWith d).toGems).gold = 0 := rfl

/-- C3: payment_options_for returns Some exactly when the gold-counted
deficit against the development-discounted cost is affordable; every
enumerated payment fits inside the player's wallet and totals exactly
the discounted cost (gold substituting for missing colors). -/
theorem C3_payment_enumeration (p : Player) (card : Card) (hleg : p.gems.legal) :
    ((p.paymentOptionsFor card).isSome ↔
      affordableSpec ((card.cost.discountedWith p.developments).toGems) p.gems) ∧
    (∀ S, p.paymentOptionsFor card = some S →
      S ≠ [] ∧ ∀ P ∈ S,
        (∀ c, c ≠ Gem.Gold → P.get c ≤ p.gems.get c) ∧
        P.get Gem.Gold ≤ p.gems.get Gem.Gold ∧
        P.total = ((card.cost.discountedWith p.developments).toGems).total) := by
  unfold Player.paymentOptionsFor
  by_cases haff : p.gems.get Gem.Gold <
      deficitOf ((card.cost.discountedWith p.developments).toGems) p.gems
  · rw [if_pos haff]
    constructor
    · simp only [Option.isSome_none, Bool.false_eq_true, false_iff, affordableSpec]
      omega
    · intro S hS
      cases hS
  · rw [if_neg haff]
    have hne : gemMatch ((card.cost.discountedWith p.developments).toGems) p.gems
        Gems.empty ≠ [] := by
      apply gemMatchF_ne_nil _ _ _ _ (Nat.lt_succ_self _)
        (discounted_toGems_legal _ _) (discounted_toGems_gold _ _) hleg
      omega
    rw [if_neg (by simpa [List.length_eq_zero] using hne)]
    constructor
    · simp only [Option.isSome_some, true_iff, affordableSpec]
      omega
    · intro S hS
      rw [Option.some.injEq] at hS
      subst hS
      refine ⟨hne, ?_⟩
      intro P hP
      obtain ⟨hb, ht⟩ := gemMatchF_mem_bounds _ _ _ _ _ hleg hP
      refine ⟨?_, ?_, ?_⟩
      · intro c _
        have h1 := hb c
        have h2 := get_empty c
        omega
      · have h1 := hb Gem.Gold
        have h2 := get_empty Gem.Gold
        omega
      · rw [ht, empty_total]
        ring

/-- C3 witness: a concrete player affording a concrete card. -/
theorem C3_payment_enumeration_witness :
    let p : Player := { Player.new with gems := ⟨1, 0, 2, 1, 0, 1⟩ }
    let card : Card := Card.all.getD 4 Card.dflt
    ((p.paymentOptionsFor card).isSome ↔
      affordableSpec ((card.cost.discountedWith p.developments).toGems) p.gems) ∧
    (∀ S, p.paymentOptionsFor card = some S →
      S ≠ [] ∧ ∀ P ∈ S,
        (∀ c, c ≠ Gem.Gold → P.get c ≤ p.gems.get c) ∧
        P.get Gem.Gold ≤ p.gems.get Gem.Gold ∧
        P.total = ((card.cost.discountedWith p.developments).toGems).total) :=
  C3_payment_enumeration { Player.new with gems := ⟨1, 0, 2, 1, 0, 1⟩ }
    (Card.all.getD 4 Card.dflt) (by decide)

/-- C10: a fully discounted card always has exactly the all-zero
payment. -/
theorem C10_free_card (p : Player) (card : Card) (hleg : p.gems.legal)
    (hfree : card.cost.discountedWith p.developments = ⟨0, 0, 0, 0, 0⟩) :
    p.paymentOptionsFor card = some [Gems.empty] := by
  unfold Player.paymentOptionsFor
  rw [hfree]
  have hdef : deficitOf (Cost.toGems ⟨0, 0, 0, 0, 0⟩) p.gems = 0 := by
    rw [deficitOf_expand]
    obtain ⟨h1, h2, h3, h4, h5, h6⟩ := hleg
    simp only [Cost.toGems]
    omega
  have hgold := legal_get_nonneg p.gems hleg Gem.Gold
  rw [if_neg (by omega)]
  have hmatch : gemMatch (Cost.toGems ⟨0, 0, 0, 0, 0⟩) p.gems Gems.empty = [Gems.empty] := by
    rfl
  rw [hmatch]
  rfl

/-- C10 witness: a player with an arbitrary wallet and enough
developments to fully discount a concrete card. -/
theorem C10_free_card_witness :
    Player.paymentOptionsFor
        ⟨0, 0, [], ⟨3, 1, 0, 2, 0, 2⟩, ⟨0, 0, 2, 1, 0, 0⟩, []⟩
        (Card.all.getD 4 Card.dflt) = some [Gems.empty] :=
  C10_free_card _ _ (by decide) (by decide)




/-- Every successful play_action appends exactly the entry
(current_player, action) to the history. -/
theorem playAction_history (g : Game) (a : Action) (g2 : Game)
    (h : g.playAction a = some g2) :
    g2.history = g.history ++ [(g.currentPlayer, a)] := by
  cases a <;>
    simp only [Game.playAction, Option.bind_eq_bind, Option.bind_eq_some, ensure_eq_some,
      exists_const, Option.some.injEq] at h
  case TakeDouble color =>
    obtain ⟨hphase, hcur, hbank, hgold, h⟩ := h
    subst h
    rfl
  case TakeDistinct colors =>
    obtain ⟨hphase, hcur, hlen, hin, hdist, hgold, h⟩ := h
    subst h
    rfl
  case Reserve cardId =>
    obtain ⟨hphase, hcur, hhas, ⟨⟨tier, dealt⟩, hrc, hres, h⟩⟩ := h
    subst h
    rfl
  case ReserveHidden tier =>
    obtain ⟨hphase, hcur, ⟨newId, hdeal, ⟨⟨t2, dealt⟩, hrc, hres, h⟩⟩⟩ := h
    subst h
    rfl
  case Purchase pr =>
    obtain ⟨hphase, hid, hcur, hpay, hhas, hleg1, hleg2, h⟩ := h
    split at h
    · rw [Option.bind_eq_some] at h
      obtain ⟨⟨tier, dealt0⟩, hrc, h⟩ := h
      simp only [Option.some_bind, Option.some.injEq] at h
      subst h
      rfl
    · simp only [Option.some_bind, Option.some.injEq] at h
      subst h
      rfl
  case Discard d =>
    obtain ⟨hphase, hcur, hgt, heq, hleg, h⟩ := h
    subst h
    rfl
  case AttractNoble nobleId =>
    obtain ⟨hphase, hcur, ⟨idx, hidx, hattr, h⟩⟩ := h
    subst h
    rfl
  case Continue =>
    obtain ⟨hphase, h⟩ := h
    subst h
    rfl
  case Pass =>
    obtain ⟨hphase, la, hla, hone, h⟩ := h
    split at h
    · rw [Option.some.injEq] at h
      subst h
      rfl
    · rw [Option.some.injEq] at h
      subst h
      rfl
    · exact absurd h (by simp)

/-- play_action never reads the history: overriding the history before
a successful step only changes which log the new entry is appended to. -/
theorem playAction_withHistory (g : Game) (a : Action) (g2 : Game)
    (h2 : List (Nat × Action)) (hsucc : g.playAction a = some g2) :
    ({ g with history := h2 } : Game).playAction a =
      some { g2 with history := h2 ++ [(g.currentPlayer, a)] } := by
  cases a <;>
    simp only [Game.playAction, Option.bind_eq_bind, Option.bind_eq_some, ensure_eq_some,
      exists_const, Option.some.injEq] at hsucc ⊢
  case TakeDouble color =>
    obtain ⟨hphase, hcur, hbank, hgold, h⟩ := hsucc
    subst h
    exact ⟨hphase, hcur, hbank, hgold, rfl⟩
  case TakeDistinct colors =>
    obtain ⟨hphase, hcur, hlen, hin, hdist, hgold, h⟩ := hsucc
    subst h
    exact ⟨hphase, hcur, hlen, hin, hdist, hgold, rfl⟩
  case Reserve cardId =>
    obtain ⟨hphase, hcur, hhas, ⟨⟨tier, dealt⟩, hrc, hres, h⟩⟩ := hsucc
    subst h
    exact ⟨hphase, hcur, hhas, ⟨(tier, dealt), hrc, hres, rfl⟩⟩
  case ReserveHidden tier =>
    obtain ⟨hphase, hcur, ⟨newId, hdeal, ⟨⟨t2, dealt⟩, hrc, hres, h⟩⟩⟩ := hsucc
    subst h
    exact ⟨hphase, hcur, ⟨newId, hdeal, ⟨(t2, dealt), hrc, hres, rfl⟩⟩⟩
  case Purchase pr =>
    obtain ⟨hphase, hid, hcur, hpay, hhas, hleg1, hleg2, h⟩ := hsucc
    refine ⟨hphase, hid, hcur, hpay, hhas, hleg1, hleg2, ?_⟩
    dsimp only
    split at h
    · next hcond =>
      rw [Option.bind_eq_some] at h
      obtain ⟨⟨tier, dealt0⟩, hrc, h⟩ := h
      simp only [Option.some_bind, Option.some.injEq] at h
      subst h
      rw [if_pos hcond, Option.bind_eq_some]
      exact ⟨(tier, dealt0), hrc, rfl⟩
    · next hcond =>
      simp only [Option.some_bind, Option.some.injEq] at h
      subst h
      rw [if_neg hcond]
      rfl
  case Discard d =>
    obtain ⟨hphase, hcur, hgt, heq, hleg, h⟩ := hsucc
    subst h
    exact ⟨hphase, hcur, hgt, heq, hleg, rfl⟩
  case AttractNoble nobleId =>
    obtain ⟨hphase, hcur, ⟨idx, hidx, hattr, h⟩⟩ := hsucc
    subst h
    exact ⟨hphase, hcur, ⟨idx, hidx, hattr, rfl⟩⟩
  case Continue =>
    obtain ⟨hphase, h⟩ := hsucc
    subst h
    exact ⟨hphase, rfl⟩
  case Pass =>
    obtain ⟨hphase, la, hla, hone, h⟩ := hsucc
    refine ⟨hphase, la, hla, hone, ?_⟩
    dsimp only
    split at h
    · rw [Option.some.injEq] at h
      subst h
      rfl
    · rw [Option.some.injEq] at h
      subst h
      rfl
    · exact absurd h (by simp)


theorem playActions_hist_prefix (as : List Action) :
    ∀ (g gk : Game), g.playActions as = some gk → ∃ tr, gk.history = g.history ++ tr := by
  induction as with
  | nil =>
    intro g gk h
    simp only [Game.playActions, Option.some.injEq] at h
    subst h
    exact ⟨[], by simp⟩
  | cons a rest ih =>
    intro g gk h
    simp only [Game.playActions, Option.bind_eq_bind, Option.bind_eq_some] at h
    obtain ⟨g1, h1, hrest⟩ := h
    obtain ⟨tr, htr⟩ := ih g1 gk hrest
    refine ⟨(g.currentPlayer, a) :: tr, ?_⟩
    rw [htr, playAction_history g a g1 h1, List.append_assoc]
    rfl

theorem C6rec (as : List Action) :
    ∀ (g gk : Game), g.playActions as = some gk → ∀ h2 : List (Nat × Action),
      ({ g with history := h2 } : Game).advanceHistoryWith
          (gk.history.drop g.history.length) =
        some { gk with history :=
          h2 ++ ((gk.history.drop g.history.length).map (fun e => [e, e])).flatten } := by
  induction as with
  | nil =>
    intro g gk h h2
    simp only [Game.playActions, Option.some.injEq] at h
    subst h
    rw [List.drop_length]
    simp [Game.advanceHistoryWith]
  | cons a rest ih =>
    intro g gk h h2
    simp only [Game.playActions, Option.bind_eq_bind, Option.bind_eq_some] at h
    obtain ⟨g1, h1, hrest⟩ := h
    have he := playAction_history g a g1 h1
    obtain ⟨tr, htr⟩ := playActions_hist_prefix rest g1 gk hrest
    have hgk : gk.history = g.history ++ ((g.currentPlayer, a) :: tr) := by
      rw [htr, he, List.append_assoc]
      rfl
    have hdrop : gk.history.drop g.history.length = (g.currentPlayer, a) :: tr := by
      rw [hgk, List.drop_left]
    have hdrop1 : gk.history.drop g1.history.length = tr := by
      rw [htr, List.drop_left]
    rw [hdrop]
    simp only [Game.advanceHistoryWith]
    rw [playAction_withHistory g a g1 (h2 ++ [(g.currentPlayer, a)]) h1]
    simp only [Option.some_bind]
    have hih := ih g1 gk hrest ((h2 ++ [(g.currentPlayer, a)]) ++ [(g.currentPlayer, a)])
    rw [hdrop1] at hih
    rw [hih]
    simp [List.append_assoc]

/-- C6 amended: replaying the recorded history onto a copy of the
initial state reproduces every component of the observed state except
the history log, which comes back with every entry duplicated (the
replay loop appends each entry and play_action appends it again). -/
theorem C6_replay_amended (g0 : Game) (as : List Action) (gk : Game)
    (hempty : g0.history = []) (hrun : g0.playActions as = some gk) :
    g0.advanceHistoryWith gk.history =
      some { gk with history := (gk.history.map (fun e => [e, e])).flatten } := by
  have h := C6rec as g0 gk hrun []
  rw [hempty] at h
  simp only [List.length_nil, List.drop_zero, List.nil_append] at h
  have hg0 : ({ g0 with history := ([] : GameHistory) } : Game) = g0 := by
    rw [← hempty]
  rw [hg0] at h
  exact h

/-- C6 witness on a concrete one-action run. -/
theorem C6_replay_amended_witness :
    gEnd0.advanceHistoryWith gEnd1.history =
      some { gEnd1 with history := (gEnd1.history.map (fun e => [e, e])).flatten } :=
  C6_replay_amended gEnd0 [Action.Continue] gEnd1 rfl (by decide)

/-- C6 counterexample: the replayed state differs from the observed
one, its history holds the entry twice. -/
theorem C6_counterexample :
    gEnd0.playActions [Action.Continue] = some gEnd1 ∧
    gEnd0.advanceHistoryWith gEnd1.history ≠ some gEnd1 := by
  refine ⟨by decide, by decide⟩

end SplendorArena
